import Mathlib

/-!
Verification of the quickbase-spec toolchain's core components against their
natural-language specification: the fixture health-check schema validator
(`tools/health-check.ts`), the patch engine's response-code normalization and
operation patching (`tools/patch.ts`), the structural `$ref` validator
(`tools/validate.ts`), the Swagger-to-OpenAPI converter (`tools/convert.ts`)
and the fixture generator (`tools/generate.ts`).

All of these functions operate on parsed JSON documents, so the embedding is
built over a JSON value type, and each TypeScript function is translated into
a Lean function over it. JavaScript-specific behaviour that the code relies
on (truthiness tests, `typeof`, string coercion of template-literal values,
first-occurrence `String.prototype.replace`, `parseInt`'s digit-prefix
parsing) is modelled by small helpers named `js...`. Object property access
is modelled on own data keys; inherited prototype properties (which `in`
would also see) are not representable in a JSON tree and are out of scope of
every claim. Recursion in `validateValueAgainstSchema` is not structural in
the source (a `$ref` jumps to an arbitrary node of the document), so the
validator is modelled with an explicit fuel parameter decremented on every
recursive call: a `none` result means the JavaScript computation does not
return normally within that recursion depth, and a value that is `none` for
every fuel is a computation that never returns.
-/

namespace QBSpec

/-- JSON values: the in-memory form of every document the tools read.
Numbers are modelled as integers; no claim depends on fractional values.
An object keeps its fields in order; parsed JSON has no repeated keys, and
lookup takes the first occurrence. -/
inductive Json where
  | null
  | bool (b : Bool)
  | num (n : Int)
  | str (s : String)
  | arr (elems : List Json)
  | obj (fields : List (String × Json))

mutual

/-- Structural equality of JSON values, recursing through the nested lists. -/
def Json.beq : Json → Json → Bool
  | Json.null, Json.null => true
  | Json.bool a, Json.bool b => a == b
  | Json.num a, Json.num b => a == b
  | Json.str a, Json.str b => a == b
  | Json.arr a, Json.arr b => Json.beqList a b
  | Json.obj a, Json.obj b => Json.beqFields a b
  | _, _ => false

def Json.beqList : List Json → List Json → Bool
  | [], [] => true
  | u :: us, w :: ws => Json.beq u w && Json.beqList us ws
  | _, _ => false

def Json.beqFields : List (String × Json) → List (String × Json) → Bool
  | [], [] => true
  | (ka, va) :: us, (kb, vb) :: ws => ka == kb && Json.beq va vb && Json.beqFields us ws
  | _, _ => false

end

mutual

theorem Json.beq_iff_eq : ∀ a b : Json, Json.beq a b = true ↔ a = b
  | Json.null, Json.null => by simp [Json.beq]
  | Json.bool _, Json.bool _ => by simp [Json.beq]
  | Json.num _, Json.num _ => by simp [Json.beq]
  | Json.str _, Json.str _ => by simp [Json.beq]
  | Json.arr x, Json.arr y => by simp [Json.beq, Json.beqList_iff_eq x y]
  | Json.obj x, Json.obj y => by simp [Json.beq, Json.beqFields_iff_eq x y]
  | Json.null, Json.bool _ | Json.null, Json.num _ | Json.null, Json.str _
  | Json.null, Json.arr _ | Json.null, Json.obj _
  | Json.bool _, Json.null | Json.bool _, Json.num _ | Json.bool _, Json.str _
  | Json.bool _, Json.arr _ | Json.bool _, Json.obj _
  | Json.num _, Json.null | Json.num _, Json.bool _ | Json.num _, Json.str _
  | Json.num _, Json.arr _ | Json.num _, Json.obj _
  | Json.str _, Json.null | Json.str _, Json.bool _ | Json.str _, Json.num _
  | Json.str _, Json.arr _ | Json.str _, Json.obj _
  | Json.arr _, Json.null | Json.arr _, Json.bool _ | Json.arr _, Json.num _
  | Json.arr _, Json.str _ | Json.arr _, Json.obj _
  | Json.obj _, Json.null | Json.obj _, Json.bool _ | Json.obj _, Json.num _
  | Json.obj _, Json.str _ | Json.obj _, Json.arr _ => by simp [Json.beq]

theorem Json.beqList_iff_eq : ∀ xs ys : List Json, Json.beqList xs ys = true ↔ xs = ys
  | [], [] => by simp [Json.beqList]
  | x :: xs, y :: ys => by
    simp [Json.beqList, Json.beq_iff_eq x y, Json.beqList_iff_eq xs ys]
  | [], _ :: _ => by simp [Json.beqList]
  | _ :: _, [] => by simp [Json.beqList]

theorem Json.beqFields_iff_eq :
    ∀ xs ys : List (String × Json), Json.beqFields xs ys = true ↔ xs = ys
  | [], [] => by simp [Json.beqFields]
  | (k₁, v₁) :: xs, (k₂, v₂) :: ys => by
    simp [Json.beqFields, Json.beq_iff_eq v₁ v₂, Json.beqFields_iff_eq xs ys, and_assoc]
  | [], _ :: _ => by simp [Json.beqFields]
  | _ :: _, [] => by simp [Json.beqFields]

end

instance : DecidableEq Json := fun a b => decidable_of_iff _ (Json.beq_iff_eq a b)

/-- Own-key lookup in an object's field list: `obj[key]`, first occurrence. -/
def jsGet : List (String × Json) → String → Option Json
  | [], _ => none
  | kv :: rest, key => if kv.1 = key then some kv.2 else jsGet rest key

/-- `key in obj` on own data keys. -/
def jsHasKey (fields : List (String × Json)) (key : String) : Bool :=
  fields.any (fun kv => kv.1 == key)

/-- Property access `j.key`: meaningful on an object; on a primitive the
(autoboxed) access finds no own data property, yielding `undefined`. -/
def jsField (j : Json) (key : String) : Option Json :=
  match j with
  | Json.obj fields => jsGet fields key
  | _ => none

/-- JavaScript truthiness of a possibly-absent value (`undefined` is falsy). -/
def jsTruthy : Option Json → Bool
  | none => false
  | some Json.null => false
  | some (Json.bool b) => b
  | some (Json.num n) => !(n == 0)
  | some (Json.str s) => !(s == "")
  | some (Json.arr _) => true
  | some (Json.obj _) => true

/-- `getTypeOf` from health-check.ts: `null`, `array`, or the `typeof` tag. -/
def getTypeOf : Json → String
  | Json.null => "null"
  | Json.arr _ => "array"
  | Json.bool _ => "boolean"
  | Json.num _ => "number"
  | Json.str _ => "string"
  | Json.obj _ => "object"

mutual

/-- JavaScript `String(v)` of a JSON value, as a template literal renders it:
an array joins its elements with commas, an object prints its generic tag. -/
def jsDisplay : Json → String
  | Json.null => "null"
  | Json.bool true => "true"
  | Json.bool false => "false"
  | Json.num n => toString n
  | Json.str s => s
  | Json.arr xs => jsDisplayList xs
  | Json.obj _ => "[object Object]"

def jsDisplayList : List Json → String
  | [] => ""
  | [x] => jsDisplay x
  | x :: y :: rest => jsDisplay x ++ "," ++ jsDisplayList (y :: rest)

end

/-- `String(v)` of a possibly-absent value, as a template literal shows it. -/
def jsDisplayOpt : Option Json → String
  | some j => jsDisplay j
  | none => "undefined"

/-! ### String helpers

`split('/')`, first-occurrence `replace`, `startsWith` and `parseInt` are
implemented over character lists so that the proofs can reason about them by
list induction; each matches the JavaScript behaviour the tools rely on. -/

/-- `s.split('/')` over characters: every maximal slash-free run, with empty
runs kept (so a leading, trailing or doubled slash yields empty pieces). -/
def splitOnSlashChars : List Char → List (List Char)
  | [] => [[]]
  | c :: cs =>
    let r := splitOnSlashChars cs
    if c = '/' then [] :: r
    else
      match r with
      | [] => [[c]]
      | h :: t => (c :: h) :: t

def jsSplitSlash (s : String) : List String :=
  (splitOnSlashChars s.data).map (fun cs => String.mk cs)

/-- `s.replace(pat, repl)` for plain-string patterns: only the first
occurrence is replaced, and a string without the pattern is unchanged. -/
def replaceFirstList (pat repl : List Char) : List Char → List Char
  | [] => if pat = [] then repl else []
  | c :: cs =>
    if pat.isPrefixOf (c :: cs) then repl ++ (c :: cs).drop pat.length
    else c :: replaceFirstList pat repl cs

def jsReplaceFirst (s pat repl : String) : String :=
  String.mk (replaceFirstList pat.data repl.data s.data)

/-- `s.startsWith(pre)`. -/
def jsStartsWith (s pre : String) : Bool :=
  pre.data.isPrefixOf s.data

/-- The digits-prefix value of `parseInt(s, 10)`: an optional sign followed
by at least one decimal digit; anything after the digit run is ignored, and
no leading digit is `NaN` (`none`). -/
def jsParseInt (s : String) : Option Int :=
  let core : List Char → Option Nat := fun cs =>
    let digits := cs.takeWhile (fun c => c.isDigit)
    if digits.isEmpty then none
    else some (digits.foldl (fun acc c => acc * 10 + (c.toNat - '0'.toNat)) 0)
  match s.data with
  | '-' :: rest => (core rest).map (fun n => -(n : Int))
  | cs => (core cs).map (fun n => (n : Int))

/-- `s.charAt(0).toUpperCase() + s.slice(1)` (ASCII case mapping). -/
def jsCapFirst (s : String) : String :=
  match s.data with
  | [] => ""
  | c :: cs => String.mk (c.toUpper :: cs)

/-- `s.toLowerCase()` (ASCII case mapping). -/
def jsToLower (s : String) : String :=
  String.mk (s.data.map Char.toLower)

/-! ### Reference Resolver (`resolveRef`, health-check.ts)

Strips the first `#/` from the pointer, splits on `/`, and descends by
successive key lookup; a missing key, or a current node that is not an
object or array, is the absence signal `none`. Arrays admit canonical
numeric indices, as the `in` operator does. -/

def resolveStep (current : Json) (part : String) : Option Json :=
  match current with
  | Json.obj fields => jsGet fields part
  | Json.arr elems =>
    match part.toNat? with
    | some i => if toString i = part then elems.get? i else none
    | none => none
  | _ => none

def resolveRef (ref : String) (spec : Json) : Option Json :=
  let parts := jsSplitSlash (jsReplaceFirst ref "#/" "")
  parts.foldl
    (fun current part =>
      match current with
      | some c => resolveStep c part
      | none => none)
    (some spec)

/-! ### Schema Validator (`validateValueAgainstSchema`, health-check.ts)

The source pushes onto shared `errors`/`warnings` arrays; the model returns
the pair of lists a call appends, `none` standing for a call that does not
return (unbounded recursion through a `$ref` chain, or a degenerate node the
source would crash on, such as a `null` schema or a truthy non-string
`$ref`). Fuel is spent on every recursive call. -/

/-- Sequential validation of a list, accumulating errors and warnings in
order and propagating a non-returning call. -/
def seqFold (f : α → Option (List String × List String)) (xs : List α) :
    Option (List String × List String) :=
  xs.foldl
    (fun acc a =>
      match acc with
      | none => none
      | some (es, ws) =>
        match f a with
        | none => none
        | some (es2, ws2) => some (es ++ es2, ws ++ ws2))
    (some ([], []))

/-- `schemas.some(s => fresh-collector errors empty)`: left-to-right with
short-circuit, each alternative judged on its own error list alone. -/
def someMatch (f : α → Option (List String × List String)) (xs : List α) : Option Bool :=
  xs.foldl
    (fun acc a =>
      match acc with
      | none => none
      | some true => some true
      | some false =>
        match f a with
        | none => none
        | some (es, _) => some es.isEmpty)
    (some false)

/-- The `type: array` arm of the structural check: recurse into every item of
an array value when the schema declares truthy `items`. `go` is the recursive
call at the next fuel level, with the document already applied. -/
def validateArr (go : Json → Json → String → Option (List String × List String))
    (value schema : Json) (path : String) : Option (List String × List String) :=
  if jsField schema "type" = some (Json.str "array") then
    match value, jsField schema "items" with
    | Json.arr elems, some items =>
      if jsTruthy (some items) then
        seqFold
          (fun (p : Nat × Json) => go p.2 items (path ++ "[" ++ toString p.1 ++ "]"))
          elems.enum
      else some ([], [])
    | _, _ => some ([], [])
  else some ([], [])

/-- The required-field sweep of the object arm: one error per required name
absent from the value's own keys. `for..of` also iterates a truthy string
one character at a time (each a one-character name); the remaining truthy
shapes (numbers, booleans, plain objects) are not iterable and throw. -/
def reqErrsOf (vfields : List (String × Json)) (schema : Json) (path : String) :
    Option (List String) :=
  if jsTruthy (jsField schema "required") then
    match jsField schema "required" with
    | some (Json.arr reqs) =>
      some (reqs.foldl
        (fun es r =>
          if jsHasKey vfields (jsDisplay r) then es
          else es ++ [path ++ ": missing required field '" ++ jsDisplay r ++ "'"])
        [])
    | some (Json.str sreq) =>
      some (sreq.data.foldl
        (fun es c =>
          if jsHasKey vfields (String.mk [c]) then es
          else es ++ [path ++ ": missing required field '" ++ String.mk [c] ++ "'"])
        [])
    | _ => none
  else some []

/-- The declared-property sweep of the object arm: recurse into each declared
property present on the value. -/
def propsFold (go : Json → Json → String → Option (List String × List String))
    (vfields props : List (String × Json)) (path : String) :
    Option (List String × List String) :=
  seqFold
    (fun (kv : String × Json) =>
      if jsHasKey vfields kv.1 then
        match jsGet vfields kv.1 with
        | some pv => go pv kv.2 (path ++ "." ++ kv.1)
        | none => some ([], [])
      else some ([], []))
    props

/-- The undeclared-field sweep of the object arm: one warning per value key
not declared in `properties`, suppressed entirely when
`additionalProperties` is truthy. -/
def unknownWsOf (vfields props : List (String × Json)) (schema : Json)
    (path : String) : List String :=
  if jsTruthy (jsField schema "additionalProperties") then []
  else
    vfields.foldl
      (fun ws kv =>
        if jsHasKey props kv.1 then ws
        else ws ++ [path ++ "." ++ kv.1 ++
          ": field not defined in schema (may be undocumented)"])
      []

/-- The `type: object` arm of the structural check: required-field errors, a
recursive pass over the declared properties, and undeclared-field warnings
unless `additionalProperties` is truthy. -/
def validateObjFields
    (go : Json → Json → String → Option (List String × List String))
    (vfields : List (String × Json)) (schema : Json) (path : String) :
    Option (List String × List String) :=
  if jsTruthy (jsField schema "properties") then
    match jsField schema "properties" with
    | some (Json.obj props) =>
      match reqErrsOf vfields schema path with
      | none => none
      | some res =>
        match propsFold go vfields props path with
        | none => none
        | some (pes, pws) =>
          some (res ++ pes, pws ++ unknownWsOf vfields props schema path)
    | some _ => none
    | none => some ([], [])
  else some ([], [])

/-- The object arm applies only when the schema declares `type: object` and
the value is an object (the only shape that can reach it past the type
gate). -/
def validateObj (go : Json → Json → String → Option (List String × List String))
    (value schema : Json) (path : String) : Option (List String × List String) :=
  if jsField schema "type" = some (Json.str "object") then
    match value with
    | Json.obj vfields => validateObjFields go vfields schema path
    | _ => some ([], [])
  else some ([], [])

/-- Sequence the array arm and then the object arm, concatenating errors and
warnings. -/
def validateStructuralRes
    (go : Json → Json → String → Option (List String × List String))
    (value schema : Json) (path : String) : Option (List String × List String) :=
  match validateArr go value schema path with
  | none => none
  | some (aes, aws) =>
    match validateObj go value schema path with
    | none => none
    | some (oes, ows) => some (aes ++ oes, aws ++ ows)

/-- `expectedTypes` then `normalizedExpected`: the declared type or type
array, with `integer`/`int` read as `number`. -/
def normalizedExpectedOf (schema : Json) : List Json :=
  (match jsField schema "type" with
   | some (Json.arr ts) => ts
   | some t => [t]
   | none => []).map
    (fun t => if t = Json.str "integer" ∨ t = Json.str "int" then Json.str "number" else t)

/-- The primitive stage reached when no `$ref`/`oneOf`/`anyOf`/`allOf` applies:
the `typeof` check (with `integer`/`int` read as `number` and a `null` value
never an error), early-returning the mismatch error, else the structural
arms. -/
def validateTyped (go : Json → Json → String → Option (List String × List String))
    (value schema : Json) (path : String) : Option (List String × List String) :=
  if jsTruthy (jsField schema "type") then
    if Json.str (getTypeOf value) ∈ normalizedExpectedOf schema then
      validateStructuralRes go value schema path
    else if getTypeOf value ≠ "null" then
      some ([path ++ ": expected " ++ jsDisplayOpt (jsField schema "type") ++
        ", got " ++ getTypeOf value], [])
    else some ([], [])
  else validateStructuralRes go value schema path

/-- `validateValueAgainstSchema(value, schema, spec, path, errors, warnings)`
with fuel: precedence is `$ref`, then `oneOf`/`anyOf`, then `allOf`, then
the primitive stage `validateTyped`. -/
def validate : Nat → Json → Json → Json → String → Option (List String × List String)
  | 0, _, _, _, _ => none
  | Nat.succ n, value, schema, spec, path =>
    if schema = Json.null then none
    else if jsTruthy (jsField schema "$ref") then
      match jsField schema "$ref" with
      | some (Json.str r) =>
        match resolveRef r spec with
        | some resolved =>
          if jsTruthy (some resolved) then validate n value resolved spec path
          else some ([], [])
        | none => some ([], [])
      | _ => none
    else if jsTruthy (jsField schema "oneOf") || jsTruthy (jsField schema "anyOf") then
      match (if jsTruthy (jsField schema "oneOf") then jsField schema "oneOf"
             else jsField schema "anyOf") with
      | some (Json.arr alts) =>
        match someMatch (fun a => validate n value a spec path) alts with
        | none => none
        | some m =>
          if !m && alts.length > 0 then
            some ([], [path ++ ": value doesn't match any of the expected schemas"])
          else some ([], [])
      | _ => none
    else if jsTruthy (jsField schema "allOf") then
      match jsField schema "allOf" with
      | some (Json.arr subs) => seqFold (fun a => validate n value a spec path) subs
      | _ => none
    else
      validateTyped (fun v sch pth => validate n v sch spec pth) value schema path

/-! ### Shape predicates for the termination analysis

The validator's recursion terminates on a node only when the node cannot
crash the walk (no `null` standing as a schema, union and `required` keys
that are arrays when truthy, `properties` an object when truthy, a `$ref`
that is a string when truthy) and pointer chains are bounded. `benign`
captures the crash-free shape with `$ref`s allowed; `refFree` additionally
forbids a truthy `$ref` anywhere, so a `refFree` resolution target ends
every pointer chain after one hop. Both recurse into all children, so they
are hereditary along any descent the resolver or validator performs. -/

/-- When `fields[key]` is truthy it is an array (a `for..of` or `.some` over
it cannot crash). -/
def arrIfTruthy (fields : List (String × Json)) (key : String) : Bool :=
  match jsGet fields key with
  | some (Json.arr _) => true
  | some v => !jsTruthy (some v)
  | none => true

/-- When `fields[key]` is truthy it is an object. -/
def objIfTruthy (fields : List (String × Json)) (key : String) : Bool :=
  match jsGet fields key with
  | some (Json.obj _) => true
  | some v => !jsTruthy (some v)
  | none => true

/-- When `fields[key]` is truthy it is a string. -/
def strIfTruthy (fields : List (String × Json)) (key : String) : Bool :=
  match jsGet fields key with
  | some (Json.str _) => true
  | some v => !jsTruthy (some v)
  | none => true

/-- The local constraints under which one step of the validator cannot
crash on this node. -/
def shapeOk (fields : List (String × Json)) : Bool :=
  strIfTruthy fields "$ref" && arrIfTruthy fields "oneOf" && arrIfTruthy fields "anyOf" &&
  arrIfTruthy fields "allOf" && arrIfTruthy fields "required" && objIfTruthy fields "properties"

mutual

/-- Crash-free schema shape, `$ref`s allowed; hereditary into all children. -/
def benign : Json → Bool
  | Json.null => false
  | Json.obj fields => shapeOk fields && benignFields fields
  | Json.arr xs => benignList xs
  | _ => true

def benignFields : List (String × Json) → Bool
  | [] => true
  | kv :: rest => benign kv.2 && benignFields rest

def benignList : List Json → Bool
  | [] => true
  | x :: rest => benign x && benignList rest

end

mutual

/-- Crash-free shape with no truthy `$ref` at any node: a document all of
whose nodes are `refFree` ends every pointer chain after a single hop. -/
def refFree : Json → Bool
  | Json.null => false
  | Json.obj fields => shapeOk fields && !jsTruthy (jsGet fields "$ref") && refFreeFields fields
  | Json.arr xs => refFreeList xs
  | _ => true

def refFreeFields : List (String × Json) → Bool
  | [] => true
  | kv :: rest => refFree kv.2 && refFreeFields rest

def refFreeList : List Json → Bool
  | [] => true
  | x :: rest => refFree x && refFreeList rest

end

/-! ### Patch/Override Engine (tools/patch.ts)

`removeInternalHeaders`, `normalizeResponseCodes` and `patchOperation` over
the typed `Operation` shape patch.ts declares. The `responses` record is a
key-ordered association list of response objects (JavaScript string keys in
insertion order); `responses[k]` is first-occurrence lookup, assignment
replaces in place or appends, `delete` removes the key. -/

/-- Headers the SDK supplies itself (`INTERNAL_HEADERS` in patch.ts). -/
def INTERNAL_HEADERS : List String :=
  ["QB-Realm-Hostname", "Authorization", "User-Agent", "Content-Type"]

/-- Operations whose request body must be forced required
(`REQUIRED_BODY_OPERATIONS` in patch.ts). -/
def REQUIRED_BODY_OPERATIONS : List String :=
  ["upsert", "deleteRecords", "runQuery", "runFormula", "createApp", "deleteApp",
   "copyApp", "createTable", "createField", "deleteFields", "createRelationship",
   "audit", "exchangeSsoToken", "cloneUserToken", "transferUserToken", "denyUsers",
   "denyUsersAndGroups", "undenyUsers", "addMembersToGroup", "removeMembersFromGroup",
   "addManagersToGroup", "removeManagersFromGroup", "addSubgroupsToGroup",
   "removeSubgroupsFromGroup", "createSolution", "changesetSolution"]

/-- A parameter as patch.ts types it; `loc` is the source's `in` field
(`in` is reserved in Lean). -/
structure Parameter where
  name : String
  loc : String
  required : Option Bool := none
  schema : Option Json := none

structure RequestBody where
  description : Option String := none
  required : Option Bool := none
  content : Option Json := none

structure Operation where
  operationId : Option String := none
  parameters : Option (List Parameter) := none
  requestBody : Option RequestBody := none
  responses : Option (List (String × Json)) := none

/-- `removeInternalHeaders`: drop header parameters on the denylist. -/
def removeInternalHeaders (op : Operation) : Operation :=
  match op.parameters with
  | some ps =>
    let kept := ps.filter (fun p => !(p.loc == "header") || !(INTERNAL_HEADERS.contains p.name))
    { op with parameters := some kept }
  | none => op

/-- The canonical key a composite response code is rewritten to, `none` for
a key the pass leaves alone. -/
def renameOf (code : String) : Option String :=
  if code = "401/403" then some "401"
  else if code = "4xx/5xx" ∨ code = "4xx" ∨ code = "5xx" then some "default"
  else none

/-- `responses[k]`: first-occurrence lookup. -/
def aGet (rs : List (String × Json)) (k : String) : Option Json :=
  match rs with
  | [] => none
  | kv :: rest => if kv.1 = k then some kv.2 else aGet rest k

/-- `responses[k] = v`: replace in place when the key exists, else append. -/
def aSet (rs : List (String × Json)) (k : String) (v : Json) : List (String × Json) :=
  if rs.any (fun kv => kv.1 = k) then rs.map (fun kv => if kv.1 = k then (k, v) else kv)
  else rs ++ [(k, v)]

/-- `delete responses[k]`. -/
def aDelete : List (String × Json) → String → List (String × Json)
  | [], _ => []
  | kv :: rest, k => if kv.1 = k then aDelete rest k else kv :: aDelete rest k

/-- One entry of the rename loop: copy the old key's response to the new
key only when the new key's entry is not truthy, then delete the old key. -/
def applyRename (rs : List (String × Json)) (p : String × String) : List (String × Json) :=
  let rs1 :=
    if jsTruthy (aGet rs p.2) then rs
    else
      match aGet rs p.1 with
      | some v => aSet rs p.2 v
      | none => rs
  aDelete rs1 p.1

/-- `normalizeResponseCodes`: collect the composite keys present, then
rename each to its canonical key without clobbering an occupied target. -/
def normalizeResponseCodes (rs : List (String × Json)) : List (String × Json) :=
  let keysToRename := (rs.map (fun kv => kv.1)).filterMap
    (fun c => (renameOf c).map (fun n => (c, n)))
  keysToRename.foldl applyRename rs

def normalizeResponsesOf (op : Operation) : Operation :=
  match op.responses with
  | none => op
  | some rs => { op with responses := some (normalizeResponseCodes rs) }

/-- `''` and a missing id are both falsy: either triggers the backfill. -/
def falsyId : Option String → Bool
  | none => true
  | some s => s == ""

def methodPrefix (method : String) : String :=
  if method = "get" then "get" else if method = "post" then "create" else method

/-- The synthesized operationId: non-parameter path segments joined, the
first character of the joined string uppercased, after the method prefix. -/
def genOperationId (path method : String) : String :=
  let parts := (jsSplitSlash path).filter (fun p => p ≠ "")
  let baseName :=
    String.join ((parts.map (fun p => if jsStartsWith p "\x7b" then "" else p)).filter (fun p => p ≠ ""))
  methodPrefix method ++ jsCapFirst baseName

/-- `patchOperation`: strip internal headers, normalize response codes,
backfill a falsy operationId, then force `requestBody.required` for the
allow-listed operations. -/
def patchOperation (op : Operation) (path method : String) : Operation :=
  let op1 := removeInternalHeaders op
  let op2 := normalizeResponsesOf op1
  let op3 :=
    if falsyId op2.operationId then { op2 with operationId := some (genOperationId path method) }
    else op2
  match op3.requestBody, op3.operationId with
  | some rb, some id =>
    if REQUIRED_BODY_OPERATIONS.contains id then
      { op3 with requestBody := some { rb with required := some true } }
    else op3
  | _, _ => op3

/-! ### Structural validator (`validateRefs`, tools/validate.ts)

Collects every string-valued `$ref` reachable from `paths` and `components`
into an insertion-ordered, deduplicated list, then checks each: a
`#/components/schemas/N` or `#/components/parameters/N` pointer whose name
has no truthy entry is an error, a pointer not starting `#/` is a warning,
and every other pointer is passed over without a finding. -/

mutual

def collectRefs : Json → List String
  | Json.obj fields =>
    (match jsGet fields "$ref" with
     | some (Json.str r) => [r]
     | _ => []) ++ collectRefsFields fields
  | Json.arr xs => collectRefsList xs
  | _ => []

def collectRefsFields : List (String × Json) → List String
  | [] => []
  | kv :: rest => collectRefs kv.2 ++ collectRefsFields rest

def collectRefsList : List Json → List String
  | [] => []
  | x :: rest => collectRefs x ++ collectRefsList rest

end

/-- A `Set<string>` built by insertion: first occurrences, in order. -/
def dedupAux : List String → List String → List String
  | [], _ => []
  | x :: xs, seen => if seen.contains x then dedupAux xs seen else x :: dedupAux xs (x :: seen)

def dedupFirst (l : List String) : List String := dedupAux l []

/-- `spec.components?.schemas || {}` read as a field list; a falsy or
non-object value contributes no named entries. -/
def asObjFields : Option Json → List (String × Json)
  | some (Json.obj fs) => fs
  | _ => []

def optChain (o : Option Json) (k : String) : Option Json :=
  match o with
  | some j => jsField j k
  | none => none

/-- The findings for one collected pointer. -/
def refCheck (schemas parameters : List (String × Json)) (r : String) :
    List String × List String :=
  if jsStartsWith r "#/components/schemas/" then
    (if !jsTruthy (jsGet schemas (jsReplaceFirst r "#/components/schemas/" "")) then
      (["Unresolved $ref: " ++ r], [])
     else ([], []))
  else if jsStartsWith r "#/components/parameters/" then
    (if !jsTruthy (jsGet parameters (jsReplaceFirst r "#/components/parameters/" "")) then
      (["Unresolved $ref: " ++ r], [])
     else ([], []))
  else if !(jsStartsWith r "#/") then ([], ["External $ref (not validated): " ++ r])
  else ([], [])

/-- The deduplicated pointers reachable from `paths` and `components`. -/
def collectedRefs (spec : Json) : List String :=
  dedupFirst
    ((match jsField spec "paths" with
      | some j => collectRefs j
      | none => []) ++
     (match jsField spec "components" with
      | some j => collectRefs j
      | none => []))

/-- `validateRefs`: the errors and warnings the pass appends. -/
def validateRefs (spec : Json) : List String × List String :=
  let schemas := asObjFields (optChain (jsField spec "components") "schemas")
  let parameters := asObjFields (optChain (jsField spec "components") "parameters")
  (collectedRefs spec).foldl
    (fun acc r =>
      let c := refCheck schemas parameters r
      (acc.1 ++ c.1, acc.2 ++ c.2))
    ([], [])

/-! ### Converter (tools/convert.ts)

`convertSchemaRef` rewrites `#/definitions/` pointers to
`#/components/schemas/` through the schema tree;
`convertSwaggerToOpenAPI` builds the OpenAPI 3 document, converting every
`definitions` entry into `components.schemas` under its original name.
Object-literal keys whose value would be `undefined` are omitted: in memory
they carry `undefined`, which serialization drops and every truthiness or
resolution step treats exactly like an absent key. -/

/-- A truthy string field (`schema.$ref && typeof schema.$ref === 'string'`). -/
def truthyStrOf : Option Json → Option String
  | some (Json.str r) => if r = "" then none else some r
  | _ => none

def replaceFieldValue (fields : List (String × Json)) (key : String) (v : Json) :
    List (String × Json) :=
  fields.map (fun kv => if kv.1 = key then (kv.1, v) else kv)

theorem jsGet_sizeOf_lt :
    ∀ (fields : List (String × Json)) (k : String) (v : Json),
      jsGet fields k = some v → sizeOf v < sizeOf fields := by
  intro fields k v h
  induction fields with
  | nil => simp [jsGet] at h
  | cons kv rest ih =>
    simp only [jsGet] at h
    by_cases hk : kv.1 = k
    · simp [hk] at h
      subst h
      cases kv with
      | mk a b => simp; omega
    · simp [hk] at h
      have := ih h
      simp
      omega

/-- `convertSchemaRef`: rewrite a truthy string `$ref`, else recurse into
`items` of an array type, else into `properties` values, else into the
first of `allOf`, `oneOf`, `anyOf` that is an array, else unchanged. -/
def convertSchemaRef (schema : Json) : Json :=
  match schema with
  | Json.obj fields =>
    match truthyStrOf (jsGet fields "$ref") with
    | some r =>
      Json.obj [("$ref", Json.str (jsReplaceFirst r "#/definitions/" "#/components/schemas/"))]
    | none =>
      if jsGet fields "type" = some (Json.str "array") ∧ jsTruthy (jsGet fields "items") then
        Json.obj (fields.attach.map
          (fun kv => if kv.1.1 = "items" then (kv.1.1, convertSchemaRef kv.1.2) else kv.1))
      else if jsTruthy (jsGet fields "properties") then
        match h2 : jsGet fields "properties" with
        | some (Json.obj props) =>
          Json.obj (replaceFieldValue fields "properties"
            (Json.obj (props.attach.map (fun kv => (kv.1.1, convertSchemaRef kv.1.2)))))
        | _ => Json.obj fields
      else
        match h3 : jsGet fields "allOf" with
        | some (Json.arr xs) =>
          Json.obj (replaceFieldValue fields "allOf"
            (Json.arr (xs.attach.map (fun a => convertSchemaRef a.1))))
        | _ =>
          match h4 : jsGet fields "oneOf" with
          | some (Json.arr xs) =>
            Json.obj (replaceFieldValue fields "oneOf"
              (Json.arr (xs.attach.map (fun a => convertSchemaRef a.1))))
          | _ =>
            match h5 : jsGet fields "anyOf" with
            | some (Json.arr xs) =>
              Json.obj (replaceFieldValue fields "anyOf"
                (Json.arr (xs.attach.map (fun a => convertSchemaRef a.1))))
            | _ => Json.obj fields
  | _ => schema
termination_by sizeOf schema
decreasing_by
  all_goals simp only [Json.obj.sizeOf_spec]
  · obtain ⟨⟨a, b⟩, hm⟩ := kv
    have h1 := List.sizeOf_lt_of_mem hm
    simp at h1 ⊢; omega
  · obtain ⟨⟨a, b⟩, hm⟩ := kv
    have h1 := List.sizeOf_lt_of_mem hm
    have h2s := jsGet_sizeOf_lt _ _ _ h2
    simp at h1 h2s ⊢; omega
  · obtain ⟨x, hm⟩ := a
    have h1 := List.sizeOf_lt_of_mem hm
    have h3s := jsGet_sizeOf_lt _ _ _ h3
    simp at h3s ⊢; omega
  · obtain ⟨x, hm⟩ := a
    have h1 := List.sizeOf_lt_of_mem hm
    have h4s := jsGet_sizeOf_lt _ _ _ h4
    simp at h4s ⊢; omega
  · obtain ⟨x, hm⟩ := a
    have h1 := List.sizeOf_lt_of_mem hm
    have h5s := jsGet_sizeOf_lt _ _ _ h5
    simp at h5s ⊢; omega

/-- Field list from (key, possibly-undefined value) pairs, the undefined
ones omitted. -/
def presentFields (fields : List (String × Option Json)) : List (String × Json) :=
  fields.filterMap (fun kv => kv.2.map (fun v => (kv.1, v)))

/-- `v ?? false`: nullish coalescing to `false`. -/
def nullishFalse : Option Json → Json
  | some Json.null => Json.bool false
  | some v => v
  | none => Json.bool false

/-- `responses[k] = v` on a field list: replace in place or append. -/
def jsSetField (fields : List (String × Json)) (key : String) (v : Json) :
    List (String × Json) :=
  if jsHasKey fields key then replaceFieldValue fields key v else fields ++ [(key, v)]

/-- `convertParameter`: body parameters pass through; others get `name`,
`in`, `description`, a defaulted `required`, and a `schema` from the
parameter's `type`/`format`/`enum`/`default` or its own `schema`. -/
def convertParameter (param : Json) : Json :=
  if jsField param "in" = some (Json.str "body") then param
  else
    let base := presentFields
      [("name", jsField param "name"),
       ("in", jsField param "in"),
       ("description", jsField param "description"),
       ("required", some (nullishFalse (jsField param "required")))]
    let withType :=
      if jsTruthy (jsField param "type") then
        jsSetField base "schema" (Json.obj (presentFields
          [("type", jsField param "type"),
           ("format", if jsTruthy (jsField param "format") then jsField param "format" else none),
           ("enum", if jsTruthy (jsField param "enum") then jsField param "enum" else none),
           ("default", jsField param "default")]))
      else base
    let withSchema :=
      if jsTruthy (jsField param "schema") then
        jsSetField withType "schema"
          (convertSchemaRef ((jsField param "schema").getD Json.null))
      else withType
    Json.obj withSchema

/-- `convertOperation`: copy the descriptive fields, split parameters into
non-body ones (converted) and a body parameter (turned into `requestBody`),
and convert each response's schema under an `application/json` content. -/
def convertOperation (operation : Json) (path method : String) : Json :=
  let base := presentFields
    [("operationId", jsField operation "operationId"),
     ("summary", jsField operation "summary"),
     ("description", jsField operation "description"),
     ("tags", jsField operation "tags")]
  let withParams :=
    match jsField operation "parameters" with
    | some (Json.arr ps) =>
      let nonBody := ps.filter (fun p => !(jsField p "in" == some (Json.str "body")))
      let bodyParam := ps.find? (fun p => jsField p "in" == some (Json.str "body"))
      let b1 :=
        if nonBody.length > 0 then
          base ++ [("parameters", Json.arr (nonBody.map convertParameter))]
        else base
      match bodyParam with
      | some bp =>
        b1 ++ [("requestBody", Json.obj (presentFields
          [("description", jsField bp "description"),
           ("required", some (nullishFalse (jsField bp "required"))),
           ("content", some (Json.obj [("application/json", Json.obj
             [("schema", convertSchemaRef ((jsField bp "schema").getD Json.null))])]))]))]
      | none => b1
    | _ => base
  let withResponses :=
    match jsField operation "responses" with
    | some (Json.obj rs) =>
      withParams ++ [("responses", Json.obj (rs.map (fun kv =>
        (kv.1, Json.obj (
          [("description",
            if jsTruthy (jsField kv.2 "description") then (jsField kv.2 "description").getD Json.null
            else Json.str "Response")] ++
          (if jsTruthy (jsField kv.2 "schema") then
            [("content", Json.obj [("application/json", Json.obj
              [("schema", convertSchemaRef ((jsField kv.2 "schema").getD Json.null))])])]
           else []))))))]
    | _ => withParams
  Json.obj withResponses

/-- The Swagger 2.0 document's top-level fields, as convert.ts reads them. -/
structure Swagger2Spec where
  infoTitle : Json := Json.str ""
  infoVersion : Json := Json.str ""
  host : String := ""
  basePath : String := ""
  schemes : List String := []
  paths : List (String × Json) := []
  definitions : Option (List (String × Json)) := none

def METHODS : List String := ["get", "post", "put", "delete", "patch"]

/-- `convertSwaggerToOpenAPI`: the OpenAPI 3.0.3 document, with every
`definitions` entry converted into `components.schemas` under its name. -/
def convertSwaggerToOpenAPI (sw : Swagger2Spec) : Json :=
  let scheme :=
    match sw.schemes.head? with
    | some s => if s = "" then "https" else s
    | none => "https"
  let baseUrl := scheme ++ "://" ++ sw.host ++ sw.basePath
  let url := jsReplaceFirst (jsReplaceFirst baseUrl "//" "/") ":/" "://"
  let convertedPaths : List (String × Json) :=
    sw.paths.map (fun kv =>
      (kv.1, Json.obj (METHODS.filterMap (fun m =>
        match jsField kv.2 m with
        | some op => if jsTruthy (some op) then some (m, convertOperation op kv.1 m) else none
        | none => none))))
  let schemasFields : List (String × Json) :=
    match sw.definitions with
    | some defs => defs.map (fun kv => (kv.1, convertSchemaRef kv.2))
    | none => []
  Json.obj
    [("openapi", Json.str "3.0.3"),
     ("info", Json.obj
       [("title", sw.infoTitle), ("version", sw.infoVersion),
        ("description", Json.str "QuickBase JSON RESTful API")]),
     ("servers", Json.arr
       [Json.obj [("url", Json.str url), ("description", Json.str "QuickBase API")]]),
     ("paths", Json.obj convertedPaths),
     ("components", Json.obj
       [("schemas", Json.obj schemasFields),
        ("securitySchemes", Json.obj
          [("userToken", Json.obj
             [("type", Json.str "apiKey"), ("name", Json.str "Authorization"),
              ("in", Json.str "header"),
              ("description", Json.str "User token: QB-USER-TOKEN {token}")]),
           ("tempToken", Json.obj
             [("type", Json.str "apiKey"), ("name", Json.str "Authorization"),
              ("in", Json.str "header"),
              ("description", Json.str "Temporary token: QB-TEMP-TOKEN {token}")])])]),
     ("security", Json.arr [Json.obj [("userToken", Json.arr [])]])]

/-! ### Fixture Generator (tools/generate.ts)

The filesystem is modelled as a list of (directory, file name) pairs; a
write appends a pair, and `getExistingFixtures` is the listing of one
directory. `generateOperationFixtures` returns the files it would write
(each guarded on the listing snapshot) and how many candidates it skipped
because the name already existed. -/

/-- `toKebabCase`: a dash between a lowercase-uppercase boundary and before
the last capital of an acronym run followed by a lowercase letter, then all
lowercased. -/
def kebabPass1 : List Char → List Char
  | a :: b :: rest =>
    if a.isLower && b.isUpper then a :: '-' :: b :: kebabPass1 rest
    else a :: kebabPass1 (b :: rest)
  | l => l

def kebabPass2 : List Char → List Char
  | a :: b :: c :: rest =>
    if a.isUpper && b.isUpper && c.isLower then a :: '-' :: b :: c :: kebabPass2 rest
    else a :: kebabPass2 (b :: c :: rest)
  | l => l

def toKebabCase (s : String) : String :=
  jsToLower (String.mk (kebabPass2 (kebabPass1 s.data)))

/-- `extractExampleValue`: unwrap a `{ value: ... }` wrapper object. -/
def extractExampleValue (exv : Json) : Json :=
  match exv with
  | Json.obj fields => (jsGet fields "value").getD (Json.obj fields)
  | e => e

def isSafeChar (c : Char) : Bool :=
  ('a' ≤ c && c ≤ 'z') || ('0' ≤ c && c ≤ '9')

/-- `replace(/[^a-z0-9]+/g, '-')`: each maximal unsafe run becomes one dash. -/
def collapseUnsafe : List Char → List Char
  | [] => []
  | c :: cs =>
    if isSafeChar c then c :: collapseUnsafe cs
    else '-' :: collapseUnsafe (cs.dropWhile (fun d => !isSafeChar d))
termination_by cs => cs.length
decreasing_by
  · simp
  · have := (List.dropWhile_sublist (l := cs) (p := fun d => !isSafeChar d)).length_le
    simp only [List.length_cons]
    omega

/-- `replace(/^-|-$/g, '')`: one leading and one trailing dash removed. -/
def stripEdgeDashes (cs : List Char) : List Char :=
  let c1 := match cs with
    | '-' :: rest => rest
    | l => l
  match c1.reverse with
  | '-' :: r => r.reverse
  | _ => c1

def safeNameOf (name : String) : String :=
  String.mk (stripEdgeDashes (collapseUnsafe (jsToLower name).data))

def PATHS_fixtures : String := "fixtures"

/-- A nested field access `a?.b?.c`. -/
def jsFieldChain (j : Json) : List String → Option Json
  | [] => some j
  | k :: rest =>
    match jsField j k with
    | some v => jsFieldChain v rest
    | none => none

/-- `if (!existingFixtures.has(fileName)) push({path, content}) else skipped++`. -/
def writeUnlessExists (existing : List String) (dir name : String) (content : Json) :
    List ((String × String) × Json) × Nat :=
  if existing.contains name then ([], 1) else ([((dir, name), content)], 0)

/-- Accumulate per-entry fixture lists and skip counts in order. -/
def accumFixtures (f : α → List ((String × String) × Json) × Nat) (xs : List α) :
    List ((String × String) × Json) × Nat :=
  xs.foldl (fun acc a => let r := f a; (acc.1 ++ r.1, acc.2 + r.2)) ([], 0)

def opIdStringOf (operation : Json) : String :=
  match jsField operation "operationId" with
  | some (Json.str s) => s
  | _ => ""

def fixtureDirOf (tag opId : String) : String :=
  PATHS_fixtures ++ "/" ++ jsToLower tag ++ "/" ++ toKebabCase opId

/-- The request fixture candidate: one file from the request body schema's
example, written only when its name is not in the existing listing. -/
def reqPartOf (operation : Json) (tag : String) (existingFixtures : List String) :
    List ((String × String) × Json) × Nat :=
  let opId := opIdStringOf operation
  let baseDir := fixtureDirOf tag opId
  if jsTruthy (jsFieldChain operation
      ["requestBody", "content", "application/json", "schema", "example"]) then
    let exv := (jsFieldChain operation
      ["requestBody", "content", "application/json", "schema", "example"]).getD Json.null
    writeUnlessExists existingFixtures baseDir "request.json"
      (Json.obj
        [("_meta", Json.obj [("description", Json.str ("Request body for " ++ opId))]),
         ("body", extractExampleValue exv)])
  else ([], 0)

/-- The response fixture candidates of every numeric status code. -/
def respPartOf (operation : Json) (tag : String) (existingFixtures : List String) :
    List ((String × String) × Json) × Nat :=
  let opId := opIdStringOf operation
  let baseDir := fixtureDirOf tag opId
  let stdHeaders := Json.obj [("Content-Type", Json.str "application/json")]
  match jsField operation "responses" with
    | some (Json.obj rs) =>
      accumFixtures
        (fun (kv : String × Json) =>
          match jsParseInt kv.1 with
          | none => ([], 0)
          | some status =>
            let schemaOpt := jsFieldChain kv.2 ["content", "application/json", "schema"]
            if jsTruthy schemaOpt then
              let schema := schemaOpt.getD Json.null
              if jsTruthy (jsField schema "x-amf-examples") then
                match jsField schema "x-amf-examples" with
                | some (Json.obj exEntries) =>
                  match exEntries with
                  | [single] =>
                    writeUnlessExists existingFixtures baseDir
                      ("response." ++ toString status ++ ".json")
                      (Json.obj
                        [("_meta", Json.obj
                           [("description", Json.str single.1),
                            ("status", Json.num status),
                            ("headers", stdHeaders)]),
                         ("body", extractExampleValue single.2)])
                  | _ =>
                    accumFixtures
                      (fun (ne : String × Json) =>
                        writeUnlessExists existingFixtures baseDir
                          ("response." ++ toString status ++ "." ++ safeNameOf ne.1 ++ ".json")
                          (Json.obj
                            [("_meta", Json.obj
                               [("description", Json.str ne.1),
                                ("status", Json.num status),
                                ("headers", stdHeaders)]),
                             ("body", extractExampleValue ne.2)]))
                      exEntries
                | _ => ([], 0)
              else if jsTruthy (jsField schema "example") then
                writeUnlessExists existingFixtures baseDir
                  ("response." ++ toString status ++ ".json")
                  (Json.obj
                    [("_meta", Json.obj
                       [("description",
                         match jsField kv.2 "description" with
                         | some d =>
                           if jsTruthy (some d) then d
                           else Json.str (toString status ++ " response for " ++ opId)
                         | none => Json.str (toString status ++ " response for " ++ opId)),
                        ("status", Json.num status),
                        ("headers", stdHeaders)]),
                     ("body", extractExampleValue ((jsField schema "example").getD Json.null))])
              else ([], 0)
            else ([], 0))
        rs
    | _ => ([], 0)

/-- `generateOperationFixtures`: a request fixture from the request body's
example, and response fixtures from each numeric status code's
`x-amf-examples` (one file per named example, else one file per status) or
plain `example`; every candidate is written only when its file name is not
in the existing listing, otherwise counted skipped. -/
def generateOperationFixtures (operation : Json) (tag : String)
    (existingFixtures : List String) : List ((String × String) × Json) × Nat :=
  ((reqPartOf operation tag existingFixtures).1 ++
     (respPartOf operation tag existingFixtures).1,
   (reqPartOf operation tag existingFixtures).2 +
     (respPartOf operation tag existingFixtures).2)

/-- The operations of the document, in path order then method order. -/
def opsOf (spec : Json) : List Json :=
  match jsField spec "paths" with
  | some (Json.obj paths) =>
    paths.flatMap (fun kv =>
      METHODS.filterMap (fun m =>
        match jsField kv.2 m with
        | some op => if jsTruthy (some op) then some op else none
        | none => none))
  | _ => []

def tagOf (operation : Json) : String :=
  match jsField operation "tags" with
  | some (Json.arr (Json.str t :: _)) => if t = "" then "misc" else t
  | _ => "misc"

/-- One loop iteration of `generate`: list the operation's fixture
directory, generate against that snapshot, then write the new files.
State: (filesystem, generated count, skipped count). -/
def generateStep (st : List (String × String) × Nat × Nat) (operation : Json) :
    List (String × String) × Nat × Nat :=
  let fs := st.1
  let tag := tagOf operation
  let fixtureDir := fixtureDirOf tag (opIdStringOf operation)
  let existing := (fs.filter (fun e => e.1 = fixtureDir)).map (fun e => e.2)
  let r := generateOperationFixtures operation tag existing
  (fs ++ r.1.map (fun f => f.1), st.2.1 + r.1.length, st.2.2 + r.2)

/-- `generate`: process every operation in order against the filesystem. -/
def generateRun (spec : Json) (fs0 : List (String × String)) :
    List (String × String) × Nat × Nat :=
  (opsOf spec).foldl generateStep (fs0, 0, 0)

/-! ## Lemmas about the response-code normalization pass -/

theorem aGet_aDelete_self (rs : List (String × Json)) (k : String) :
    aGet (aDelete rs k) k = none := by
  induction rs with
  | nil => rfl
  | cons kv rest ih =>
    by_cases h : kv.1 = k
    · simpa [aDelete, h] using ih
    · simpa [aDelete, aGet, h] using ih

theorem aGet_aDelete_ne (rs : List (String × Json)) (k k' : String) (h : k' ≠ k) :
    aGet (aDelete rs k) k' = aGet rs k' := by
  induction rs with
  | nil => rfl
  | cons kv rest ih =>
    by_cases hk : kv.1 = k
    · have h1 : kv.1 ≠ k' := by rw [hk]; exact Ne.symm h
      simp [aDelete, aGet, hk, h1, ih, Ne.symm h]
    · by_cases hk' : kv.1 = k'
      · simp [aDelete, aGet, hk, hk', h]
      · simp [aDelete, aGet, hk, hk', ih]

theorem aGet_append (rs rs' : List (String × Json)) (k : String) :
    aGet (rs ++ rs') k = match aGet rs k with
      | some v => some v
      | none => aGet rs' k := by
  induction rs with
  | nil => simp [aGet]
  | cons kv rest ih =>
    by_cases h : kv.1 = k
    · simp [aGet, h]
    · simp [aGet, h, ih]

theorem aGet_none_iff (rs : List (String × Json)) (k : String) :
    aGet rs k = none ↔ rs.any (fun kv => kv.1 = k) = false := by
  induction rs with
  | nil => simp [aGet]
  | cons kv rest ih =>
    by_cases h : kv.1 = k
    · simp [aGet, h]
    · simp [aGet, h, ih]

theorem aGet_map_setter (rs : List (String × Json)) (k : String) (v : Json) (k' : String) :
    aGet (rs.map (fun kv => if kv.1 = k then (k, v) else kv)) k' =
      if k' = k then (if (aGet rs k').isSome then some v else none) else aGet rs k' := by
  induction rs with
  | nil => by_cases h : k' = k <;> simp [aGet, h]
  | cons kv rest ih =>
    by_cases h0 : kv.1 = k
    · by_cases h' : k' = k
      · simp [aGet, h0, h', ih]
      · have hne : k ≠ k' := fun e => h' e.symm
        have h0' : kv.1 ≠ k' := by rw [h0]; exact hne
        simp [aGet, h0, h0', h', hne, ih]
    · by_cases hk' : kv.1 = k'
      · have hne : ¬ k' = k := by
          intro e; exact h0 (by rw [e] at hk'; exact hk')
        simp [aGet, h0, hk', hne]
      · simp [aGet, h0, hk', ih]

theorem aGet_aSet_self (rs : List (String × Json)) (k : String) (v : Json) :
    aGet (aSet rs k v) k = some v := by
  unfold aSet
  by_cases h : rs.any (fun kv => kv.1 = k)
  · rw [if_pos h]
    have hs : (aGet rs k).isSome := by
      rcases ho : aGet rs k with _ | w
      · rw [aGet_none_iff] at ho; rw [ho] at h; simp at h
      · rfl
    rw [aGet_map_setter]
    simp [hs]
  · rw [if_neg h]
    rw [aGet_append]
    have h0 : aGet rs k = none := by
      rw [aGet_none_iff]
      cases hb : rs.any (fun kv => kv.1 = k)
      · rfl
      · exact absurd hb h
    simp [h0, aGet]

theorem aGet_aSet_ne (rs : List (String × Json)) (k : String) (v : Json) (k' : String)
    (h : k' ≠ k) : aGet (aSet rs k v) k' = aGet rs k' := by
  unfold aSet
  by_cases hany : rs.any (fun kv => kv.1 = k)
  · rw [if_pos hany]
    rw [aGet_map_setter]
    simp [h]
  · rw [if_neg hany]
    rw [aGet_append]
    rcases ho : aGet rs k' with _ | w
    · simp only [ho]
      simp [aGet, Ne.symm h]
    · simp [ho]

theorem renameOf_canonical {o n : String} (h : renameOf o = some n) : renameOf n = none := by
  unfold renameOf at h
  split_ifs at h with h1 h2
  · injection h with h; subst h; decide
  · injection h with h; subst h; decide

theorem renameOf_target_401 {o n : String} (h : renameOf o = some n) (hn : n = "401") :
    o = "401/403" := by
  unfold renameOf at h
  split_ifs at h with h1 h2
  · exact h1
  · injection h with h; rw [← h] at hn; exact absurd hn (by decide)

theorem renameOf_old_not_canonical {o n k : String} (h : renameOf o = some n)
    (hk : renameOf k = none) : o ≠ k := by
  intro e
  rw [e, hk] at h
  exact Option.noConfusion h

theorem aGet_mem_keys {rs : List (String × Json)} {k : String} {v : Json}
    (h : aGet rs k = some v) : k ∈ rs.map (fun kv => kv.1) := by
  induction rs with
  | nil => exact Option.noConfusion h
  | cons kv rest ih =>
    simp only [aGet] at h
    by_cases hk : kv.1 = k
    · simp [hk]
    · rw [if_neg hk] at h
      simp [ih h]

theorem aGet_isSome_of_mem_keys {rs : List (String × Json)} {k : String}
    (h : k ∈ rs.map (fun kv => kv.1)) : aGet rs k ≠ none := by
  induction rs with
  | nil => simp at h
  | cons kv rest ih =>
    simp only [List.map_cons, List.mem_cons] at h
    by_cases hk : kv.1 = k
    · simp [aGet, hk]
    · rcases h with h | h
      · exact absurd h.symm hk
      · simp [aGet, hk, ih h]

/-- The rename work list collected at the start of the pass. -/
def keysToRenameOf (rs : List (String × Json)) : List (String × String) :=
  (rs.map (fun kv => kv.1)).filterMap (fun c => (renameOf c).map (fun n => (c, n)))

theorem normalizeResponseCodes_eq_fold (rs : List (String × Json)) :
    normalizeResponseCodes rs = (keysToRenameOf rs).foldl applyRename rs := rfl

theorem mem_keysToRenameOf {rs : List (String × Json)} {p : String × String}
    (h : p ∈ keysToRenameOf rs) : renameOf p.1 = some p.2 := by
  rcases List.mem_filterMap.mp h with ⟨c, _, he⟩
  rcases ho : renameOf c with _ | n
  · rw [ho] at he; exact Option.noConfusion he
  · rw [ho] at he
    simp only [Option.map_some'] at he
    injection he with he
    rw [← he]
    exact ho

theorem keysToRenameOf_mem {rs : List (String × Json)} {k c : String} {v : Json}
    (hv : aGet rs k = some v) (hc : renameOf k = some c) : (k, c) ∈ keysToRenameOf rs := by
  apply List.mem_filterMap.mpr
  exact ⟨k, aGet_mem_keys hv, by rw [hc]; rfl⟩

theorem applyRename_kills_old (rs : List (String × Json)) (p : String × String) :
    aGet (applyRename rs p) p.1 = none :=
  aGet_aDelete_self _ _

theorem applyRename_preserve (rs : List (String × Json)) (o n k : String)
    (hon : renameOf o = some n) (hk : renameOf k = none)
    (htr : jsTruthy (aGet rs k) = true) :
    aGet (applyRename rs (o, n)) k = aGet rs k := by
  have hko : k ≠ o := Ne.symm (renameOf_old_not_canonical hon hk)
  unfold applyRename
  rw [aGet_aDelete_ne _ _ _ hko]
  by_cases hg : jsTruthy (aGet rs n) = true
  · rw [if_pos hg]
  · rw [if_neg hg]
    rcases hov : aGet rs o with _ | v
    · rfl
    · have hkn : k ≠ n := by
        intro e
        rw [e] at htr
        exact hg htr
      exact aGet_aSet_ne _ _ _ _ hkn

theorem applyRename_keeps_none (rs : List (String × Json)) (o n k : String)
    (hon : renameOf o = some n) (hk : renameOf k ≠ none)
    (h0 : aGet rs k = none) : aGet (applyRename rs (o, n)) k = none := by
  by_cases hko : k = o
  · subst hko
    exact aGet_aDelete_self _ _
  · unfold applyRename
    rw [aGet_aDelete_ne _ _ _ hko]
    by_cases hg : jsTruthy (aGet rs n) = true
    · rw [if_pos hg]; exact h0
    · rw [if_neg hg]
      rcases hov : aGet rs o with _ | v
      · exact h0
      · have hkn : k ≠ n := by
          intro e
          rw [e] at hk
          exact hk (renameOf_canonical hon)
        rw [aGet_aSet_ne _ _ _ _ hkn]
        exact h0

theorem fold_preserve (l : List (String × String)) (rs : List (String × Json)) (k : String)
    (hl : ∀ p ∈ l, renameOf p.1 = some p.2) (hk : renameOf k = none)
    (htr : jsTruthy (aGet rs k) = true) :
    aGet (l.foldl applyRename rs) k = aGet rs k := by
  induction l generalizing rs with
  | nil => rfl
  | cons p l' ih =>
    obtain ⟨o, n⟩ := p
    have hp : renameOf o = some n := hl _ (List.mem_cons_self _ _)
    rw [List.foldl_cons]
    have hstep := applyRename_preserve rs o n k hp hk htr
    have htr' : jsTruthy (aGet (applyRename rs (o, n)) k) = true := by rw [hstep]; exact htr
    rw [ih (applyRename rs (o, n)) (fun q hq => hl q (List.mem_cons_of_mem _ hq)) htr', hstep]

theorem fold_keeps_none (l : List (String × String)) (rs : List (String × Json)) (k : String)
    (hl : ∀ p ∈ l, renameOf p.1 = some p.2) (hk : renameOf k ≠ none)
    (h0 : aGet rs k = none) :
    aGet (l.foldl applyRename rs) k = none := by
  induction l generalizing rs with
  | nil => exact h0
  | cons p l' ih =>
    obtain ⟨o, n⟩ := p
    have hp : renameOf o = some n := hl _ (List.mem_cons_self _ _)
    rw [List.foldl_cons]
    exact ih _ (fun q hq => hl q (List.mem_cons_of_mem _ hq))
      (applyRename_keeps_none rs o n k hp hk h0)

theorem fold_kills (l : List (String × String)) (rs : List (String × Json)) (k c : String)
    (hl : ∀ p ∈ l, renameOf p.1 = some p.2) (hk : renameOf k = some c)
    (hin : (k, c) ∈ l ∨ aGet rs k = none) :
    aGet (l.foldl applyRename rs) k = none := by
  induction l generalizing rs with
  | nil =>
    rcases hin with h | h
    · cases h
    · exact h
  | cons p l' ih =>
    have hl' : ∀ q ∈ l', renameOf q.1 = some q.2 := fun q hq => hl q (List.mem_cons_of_mem _ hq)
    rw [List.foldl_cons]
    rcases hin with hmem | h0
    · rcases List.mem_cons.mp hmem with he | hm
      · rw [← he]
        exact ih _ hl' (Or.inr (applyRename_kills_old rs (k, c)))
      · exact ih _ hl' (Or.inl hm)
    · obtain ⟨o, n⟩ := p
      have hp := hl _ (List.mem_cons_self _ _)
      exact ih _ hl' (Or.inr (applyRename_keeps_none rs o n k hp (by rw [hk]; simp) h0))

/-- No composite key survives the pass. -/
theorem norm_composite_none (rs : List (String × Json)) (k : String)
    (hk : renameOf k ≠ none) : aGet (normalizeResponseCodes rs) k = none := by
  rcases hc : renameOf k with _ | c
  · exact absurd hc hk
  · rw [normalizeResponseCodes_eq_fold]
    apply fold_kills _ _ _ _ (fun p hp => mem_keysToRenameOf hp) hc
    rcases hov : aGet rs k with _ | v
    · exact Or.inr rfl
    · exact Or.inl (keysToRenameOf_mem hov hc)

theorem norm_keys_not_composite (rs : List (String × Json)) (k : String)
    (h : k ∈ (normalizeResponseCodes rs).map (fun kv => kv.1)) : renameOf k = none := by
  rcases hc : renameOf k with _ | c
  · rfl
  · exact absurd (norm_composite_none rs k (by rw [hc]; simp)) (aGet_isSome_of_mem_keys h)

/-- The pass done twice is the pass done once. -/
theorem norm_idempotent (rs : List (String × Json)) :
    normalizeResponseCodes (normalizeResponseCodes rs) = normalizeResponseCodes rs := by
  have h : keysToRenameOf (normalizeResponseCodes rs) = [] := by
    apply List.filterMap_eq_nil_iff.mpr
    intro c hc
    rw [norm_keys_not_composite rs c hc]
    rfl
  rw [normalizeResponseCodes_eq_fold (normalizeResponseCodes rs), h]
  rfl

theorem fold_tail_401 (l : List (String × String)) (rs : List (String × Json)) (w : Json)
    (hl : ∀ p ∈ l, renameOf p.1 = some p.2)
    (h1 : aGet rs "401" = some w) (h2 : aGet rs "401/403" = none) :
    aGet (l.foldl applyRename rs) "401" = some w := by
  induction l generalizing rs with
  | nil => exact h1
  | cons p l' ih =>
    obtain ⟨o, n⟩ := p
    have hp : renameOf o = some n := hl _ (List.mem_cons_self _ _)
    have hl' : ∀ q ∈ l', renameOf q.1 = some q.2 := fun q hq => hl q (List.mem_cons_of_mem _ hq)
    have ho401 : ("401" : String) ≠ o := Ne.symm (renameOf_old_not_canonical hp (by decide))
    rw [List.foldl_cons]
    have hstep1 : aGet (applyRename rs (o, n)) "401" = some w := by
      unfold applyRename
      rw [aGet_aDelete_ne _ _ _ ho401]
      by_cases hg : jsTruthy (aGet rs n) = true
      · rw [if_pos hg]; exact h1
      · rw [if_neg hg]
        by_cases hon : o = "401/403"
        · subst hon
          rw [h2]
          exact h1
        · rcases hov : aGet rs o with _ | v
          · exact h1
          · have hn401 : ("401" : String) ≠ n := by
              intro e
              exact hon (renameOf_target_401 hp e.symm)
            rw [aGet_aSet_ne _ _ _ _ hn401]
            exact h1
    have hstep2 : aGet (applyRename rs (o, n)) "401/403" = none := by
      by_cases hon : o = "401/403"
      · subst hon
        exact aGet_aDelete_self _ _
      · unfold applyRename
        rw [aGet_aDelete_ne _ _ _ (fun e => hon e.symm)]
        by_cases hg : jsTruthy (aGet rs n) = true
        · rw [if_pos hg]; exact h2
        · rw [if_neg hg]
          rcases hov : aGet rs o with _ | v
          · exact h2
          · have : ("401/403" : String) ≠ n := by
              intro e
              have := renameOf_canonical hp
              rw [← e] at this
              exact absurd this (by decide)
            rw [aGet_aSet_ne _ _ _ _ this]
            exact h2
    exact ih _ hl' hstep1 hstep2

theorem fold_pos_401 (l : List (String × String)) (rs : List (String × Json)) (w : Json)
    (hl : ∀ p ∈ l, renameOf p.1 = some p.2)
    (hg : jsTruthy (aGet rs "401") = false)
    (hw : aGet rs "401/403" = some w)
    (hmem : ("401/403", "401") ∈ l) :
    aGet (l.foldl applyRename rs) "401" = some w := by
  induction l generalizing rs with
  | nil => cases hmem
  | cons p l' ih =>
    obtain ⟨o, n⟩ := p
    have hp : renameOf o = some n := hl _ (List.mem_cons_self _ _)
    have hl' : ∀ q ∈ l', renameOf q.1 = some q.2 := fun q hq => hl q (List.mem_cons_of_mem _ hq)
    rw [List.foldl_cons]
    by_cases hon : o = "401/403"
    · have hn : n = "401" := by
        rw [hon] at hp
        have h4 : renameOf "401/403" = some "401" := by decide
        rw [h4] at hp
        exact (Option.some.inj hp).symm
      subst hon
      subst hn
      have hstep : applyRename rs ("401/403", "401") = aDelete (aSet rs "401" w) "401/403" := by
        unfold applyRename
        rw [if_neg (by rw [hg]; simp), hw]
      rw [hstep]
      apply fold_tail_401 l' _ w hl'
      · rw [aGet_aDelete_ne _ _ _ (by decide)]
        exact aGet_aSet_self _ _ _
      · exact aGet_aDelete_self _ _
    · have hmem' : ("401/403", "401") ∈ l' := by
        rcases List.mem_cons.mp hmem with he | hm
        · exact absurd (congrArg Prod.fst he.symm) hon
        · exact hm
      have h401o : ("401" : String) ≠ o := Ne.symm (renameOf_old_not_canonical hp (by decide))
      have hn401 : ("401" : String) ≠ n := by
        intro e
        exact hon (renameOf_target_401 hp e.symm)
      have h43o : ("401/403" : String) ≠ o := fun e => hon e.symm
      have h43n : ("401/403" : String) ≠ n := by
        intro e
        have := renameOf_canonical hp
        rw [← e] at this
        exact absurd this (by decide)
      have hg' : jsTruthy (aGet (applyRename rs (o, n)) "401") = false := by
        unfold applyRename
        rw [aGet_aDelete_ne _ _ _ h401o]
        by_cases hgn : jsTruthy (aGet rs n) = true
        · rw [if_pos hgn]; exact hg
        · rw [if_neg hgn]
          rcases hov : aGet rs o with _ | v
          · exact hg
          · rw [aGet_aSet_ne _ _ _ _ hn401]; exact hg
      have hw' : aGet (applyRename rs (o, n)) "401/403" = some w := by
        unfold applyRename
        rw [aGet_aDelete_ne _ _ _ h43o]
        by_cases hgn : jsTruthy (aGet rs n) = true
        · rw [if_pos hgn]; exact hw
        · rw [if_neg hgn]
          rcases hov : aGet rs o with _ | v
          · exact hw
          · rw [aGet_aSet_ne _ _ _ _ h43n]; exact hw
      exact ih _ hl' hg' hw' hmem'

/-- C4: the response-code normalization pass rewrites composite status-code
keys to their canonical key only when the canonical key is not already
occupied — an existing (truthy) canonical entry, and every other
non-composite entry, keeps its value; when `401` is free the `401/403`
entry's response is moved there; and re-running the pass is a no-op. -/
theorem normalizeResponseCodes_no_clobber_idempotent :
    (∀ (rs : List (String × Json)) (k : String) (v : Json),
      renameOf k = none → aGet rs k = some v → jsTruthy (some v) = true →
      aGet (normalizeResponseCodes rs) k = some v) ∧
    (∀ (rs : List (String × Json)) (w : Json),
      jsTruthy (aGet rs "401") = false → aGet rs "401/403" = some w →
      aGet (normalizeResponseCodes rs) "401" = some w) ∧
    (∀ rs : List (String × Json),
      normalizeResponseCodes (normalizeResponseCodes rs) = normalizeResponseCodes rs) := by
  refine ⟨?_, ?_, norm_idempotent⟩
  · intro rs k v hk hv htr
    rw [normalizeResponseCodes_eq_fold]
    rw [fold_preserve _ _ _ (fun p hp => mem_keysToRenameOf hp) hk (by rw [hv]; exact htr)]
    exact hv
  · intro rs w hg hw
    rw [normalizeResponseCodes_eq_fold]
    exact fold_pos_401 _ _ _ (fun p hp => mem_keysToRenameOf hp) hg hw
      (keysToRenameOf_mem hw (by decide))

/-- C10: after the normalization pass no composite key (`401/403`, `4xx`,
`5xx`, `4xx/5xx`) remains in the responses record — the composite entry is
always deleted — and when the canonical target already held a (truthy)
response, that response is untouched: the composite entry's content is
discarded, not merged. -/
theorem normalizeResponseCodes_composites_removed :
    (∀ (rs : List (String × Json)) (k : String),
      k = "401/403" ∨ k = "4xx" ∨ k = "5xx" ∨ k = "4xx/5xx" →
      aGet (normalizeResponseCodes rs) k = none) ∧
    (∀ (rs : List (String × Json)) (v : Json),
      aGet rs "401" = some v → jsTruthy (some v) = true →
      aGet (normalizeResponseCodes rs) "401" = some v) := by
  constructor
  · intro rs k hk
    apply norm_composite_none
    rcases hk with h | h | h | h <;> rw [h] <;> decide
  · intro rs v hv htr
    rw [normalizeResponseCodes_eq_fold]
    rw [fold_preserve _ _ _ (fun p hp => mem_keysToRenameOf hp) (by decide) (by rw [hv]; exact htr)]
    exact hv

/-! ## The operationId backfill (C7) -/

theorem eq_empty_of_data_nil {a : String} (h : a.data = []) : a = "" := by
  cases a with
  | mk d => simp at h; simp [h]

theorem append_ne_empty_left {a b : String} (h : a ≠ "") : a ++ b ≠ "" := by
  intro e
  apply h
  have h2 : (a ++ b).data = ([] : List Char) := by rw [e]
  rw [String.data_append] at h2
  exact eq_empty_of_data_nil (List.append_eq_nil.mp h2).1

theorem methodPrefix_ne_empty {method : String} (hm : method ∈ METHODS) :
    methodPrefix method ≠ "" := by
  simp only [METHODS, List.mem_cons, List.not_mem_nil, or_false] at hm
  rcases hm with h | h | h | h | h <;> subst h <;> decide

theorem genOperationId_ne_empty {path method : String} (hm : method ∈ METHODS) :
    genOperationId path method ≠ "" :=
  append_ne_empty_left (methodPrefix_ne_empty hm)

theorem removeInternalHeaders_keeps_id (op : Operation) :
    (removeInternalHeaders op).operationId = op.operationId := by
  unfold removeInternalHeaders
  cases op.parameters <;> rfl

theorem normalizeResponsesOf_keeps_id (op : Operation) :
    (normalizeResponsesOf op).operationId = op.operationId := by
  unfold normalizeResponsesOf
  cases op.responses <;> rfl

theorem requiredBodyFix_keeps_id (op3 : Operation) :
    (match op3.requestBody, op3.operationId with
      | some rb, some id =>
        if REQUIRED_BODY_OPERATIONS.contains id then
          { op3 with requestBody := some { rb with required := some true } }
        else op3
      | _, _ => op3).operationId = op3.operationId := by
  obtain ⟨oid, pars, rb, resp⟩ := op3
  cases rb <;> cases oid <;> simp only <;> try rfl
  split <;> rfl

theorem patchOperation_operationId (op : Operation) (path method : String) :
    (patchOperation op path method).operationId =
      (if falsyId op.operationId then some (genOperationId path method)
       else op.operationId) := by
  unfold patchOperation
  rw [requiredBodyFix_keeps_id]
  rw [normalizeResponsesOf_keeps_id, removeInternalHeaders_keeps_id]
  by_cases hf : falsyId op.operationId = true
  · rw [if_pos hf, if_pos hf]
  · rw [if_neg hf, if_neg hf]
    rw [normalizeResponsesOf_keeps_id, removeInternalHeaders_keeps_id]

/-- Modelled from the claim's words, for comparison with the code: the
method prefix followed by the PascalCase concatenation of the path's
non-parameter segments — each segment's first letter uppercased, then all
segments concatenated. -/
def pascalCaseOperationId (path method : String) : String :=
  let parts := (jsSplitSlash path).filter (fun p => p ≠ "")
  let nonParam := parts.filter (fun p => !(jsStartsWith p "\x7b"))
  methodPrefix method ++ String.join (nonParam.map jsCapFirst)

/-- C7 counterexample: for `GET /apps/tables` (no operationId) the code
synthesizes `getAppstables` — only the first character of the joined
segments is uppercased — while the PascalCase concatenation of the
non-parameter segments is `getAppsTables`. -/
theorem patchOperation_id_not_pascal_case :
    (patchOperation { operationId := none } "/apps/tables" "get").operationId =
      some "getAppstables" ∧
    pascalCaseOperationId "/apps/tables" "get" = "getAppsTables" ∧
    ("getAppstables" : String) ≠ "getAppsTables" :=
  ⟨by decide, by decide, by decide⟩

/-- C7 (amended): for every operation that lacks a (truthy) operationId the
patch pass synthesizes one deterministically as the method prefix followed
by the concatenation of the path's non-parameter segments with the first
character of the concatenation uppercased (later segments keep their case);
afterwards every operation carries a non-empty operationId. -/
theorem patchOperation_backfills_operationId (op : Operation) (path method : String)
    (hm : method ∈ METHODS) :
    ∃ id, (patchOperation op path method).operationId = some id ∧ id ≠ "" ∧
      (falsyId op.operationId = true → id = genOperationId path method) ∧
      (falsyId op.operationId = false → op.operationId = some id) := by
  rw [patchOperation_operationId]
  cases hf : falsyId op.operationId
  · rcases ho : op.operationId with _ | s
    · rw [ho] at hf; exact absurd hf (by decide)
    · refine ⟨s, ?_, ?_, ?_, ?_⟩
      · simp [hf, ho]
      · intro e
        rw [ho, e] at hf
        exact absurd hf (by decide)
      · intro h; exact absurd h (by simp)
      · intro _; rfl
  · exact ⟨genOperationId path method, by simp [hf], genOperationId_ne_empty hm,
      fun _ => rfl, fun h => absurd h (by simp)⟩

theorem patchOperation_backfills_operationId_witness :
    (patchOperation { operationId := none } "/apps/{appId}" "get").operationId =
      some "getApps" := by
  obtain ⟨id, h1, _, h3, _⟩ :=
    patchOperation_backfills_operationId { operationId := none } "/apps/{appId}" "get" (by decide)
  rw [h1, h3 (by decide)]
  decide

end QBSpec

namespace QBSpec

/-! ## C2: a null value is accepted by every non-ref, non-union schema node -/

theorem validateArr_null (go : Json → Json → String → Option (List String × List String))
    (s : Json) (p : String) : validateArr go Json.null s p = some ([], []) := by
  unfold validateArr
  split_ifs <;> rfl

theorem validateObj_null (go : Json → Json → String → Option (List String × List String))
    (s : Json) (p : String) : validateObj go Json.null s p = some ([], []) := by
  unfold validateObj
  split_ifs <;> rfl

theorem validateStructuralRes_null
    (go : Json → Json → String → Option (List String × List String))
    (s : Json) (p : String) : validateStructuralRes go Json.null s p = some ([], []) := by
  unfold validateStructuralRes
  rw [validateArr_null, validateObj_null]
  rfl

theorem validateTyped_null (go : Json → Json → String → Option (List String × List String))
    (s : Json) (p : String) : validateTyped go Json.null s p = some ([], []) := by
  unfold validateTyped
  simp only [getTypeOf]
  split_ifs with h1 h2 h3
  · exact validateStructuralRes_null go s p
  · exact absurd rfl h3
  · rfl
  · exact validateStructuralRes_null go s p

/-- C2: validating the value `null` against any non-null schema node whose
`$ref`, `oneOf`, `anyOf` and `allOf` fields are all falsy (a non-union,
non-ref node, of any declared type) returns normally with zero errors and
zero warnings: `null` is always accepted. -/
theorem validate_null_accepted (n : Nat) (s d : Json) (p : String)
    (hs : s ≠ Json.null)
    (href : jsTruthy (jsField s "$ref") = false)
    (hone : jsTruthy (jsField s "oneOf") = false)
    (hany : jsTruthy (jsField s "anyOf") = false)
    (hall : jsTruthy (jsField s "allOf") = false) :
    validate (n + 1) Json.null s d p = some ([], []) := by
  rw [validate]
  rw [if_neg hs, href]
  rw [if_neg (by decide : ¬((false : Bool) = true))]
  rw [hone, hany]
  rw [if_neg (by decide : ¬((false || false : Bool) = true))]
  rw [hall]
  rw [if_neg (by decide : ¬((false : Bool) = true))]
  exact validateTyped_null _ s p

theorem validate_null_accepted_witness :
    validate 1 Json.null (Json.obj [("type", Json.str "string")]) Json.null "$" =
      some ([], []) :=
  validate_null_accepted 0 (Json.obj [("type", Json.str "string")]) Json.null "$"
    (by decide) (by decide) (by decide) (by decide) (by decide)

end QBSpec

namespace QBSpec

/-! ## C3: oneOf / anyOf leniency -/

def branchMatches (r : Option (List String × List String)) : Bool :=
  match r with
  | some (es, _) => es.isEmpty
  | none => false

theorem someMatch_foldl_aux (f : α → Option (List String × List String)) (xs : List α)
    (b : Bool) (h : ∀ a ∈ xs, (f a).isSome) :
    xs.foldl
      (fun acc a =>
        match acc with
        | none => none
        | some true => some true
        | some false =>
          match f a with
          | none => none
          | some (es, _) => some es.isEmpty)
      (some b)
    = some (b || xs.any fun a => branchMatches (f a)) := by
  induction xs generalizing b with
  | nil => simp [List.foldl]
  | cons a tl ih =>
    have ha : (f a).isSome := h a (List.mem_cons_self _ _)
    have htl : ∀ x ∈ tl, (f x).isSome := fun x hx => h x (List.mem_cons_of_mem _ hx)
    cases b with
    | true =>
      simp only [List.foldl_cons, List.any_cons]
      rw [ih true htl]
      simp
    | false =>
      obtain ⟨⟨es, ws⟩, hfa⟩ := Option.isSome_iff_exists.mp ha
      simp only [List.foldl_cons, List.any_cons]
      rw [show (match f a with
            | none => none
            | some (es, _) => some es.isEmpty) = some (branchMatches (f a)) by
          rw [hfa]; rfl]
      rw [ih _ htl]
      simp

theorem someMatch_eq_any (f : α → Option (List String × List String)) (xs : List α)
    (h : ∀ a ∈ xs, (f a).isSome) :
    someMatch f xs = some (xs.any fun a => branchMatches (f a)) := by
  unfold someMatch
  rw [someMatch_foldl_aux f xs false h]
  simp

/-- C3: when a non-ref schema node declares `oneOf` (or, `oneOf` falsy,
`anyOf`) as an array of alternatives, and every alternative's validation
returns normally, the node's own result carries zero errors; it is
`([], [])` when at least one alternative yields zero errors (each judged on
its own fresh collector), and otherwise — with at least one alternative
present — exactly one warning is emitted. In particular the boolean `true`
against a `oneOf` of a string schema and a number schema yields zero errors
and exactly one warning (see the witness). -/
theorem validate_union_leniency (n : Nat) (v s d : Json) (p : String) (alts : List Json)
    (hs : s ≠ Json.null)
    (href : jsTruthy (jsField s "$ref") = false)
    (hu : jsField s "oneOf" = some (Json.arr alts) ∨
      (jsTruthy (jsField s "oneOf") = false ∧ jsField s "anyOf" = some (Json.arr alts)))
    (hsome : ∀ a ∈ alts, (validate n v a d p).isSome) :
    validate (n + 1) v s d p =
      (if alts.any (fun a => branchMatches (validate n v a d p)) then some ([], [])
       else if alts.length > 0 then
         some ([], [p ++ ": value doesn't match any of the expected schemas"])
       else some ([], [])) := by
  rw [validate]
  rw [if_neg hs, href]
  rw [if_neg (by decide : ¬((false : Bool) = true))]
  rcases hu with hone | ⟨hone, hany⟩
  · rw [hone]
    rw [show jsTruthy (some (Json.arr alts)) = true from rfl]
    rw [if_pos (show ((true || jsTruthy (jsField s "anyOf") : Bool) = true) by simp)]
    rw [if_pos (show ((true : Bool) = true) from rfl)]
    show (match someMatch (fun a => validate n v a d p) alts with
      | none => none
      | some m =>
        if (!m && decide (alts.length > 0)) = true then
          some ([], [p ++ ": value doesn't match any of the expected schemas"])
        else some ([], [])) = _
    rw [someMatch_eq_any _ _ hsome]
    cases hA : alts.any (fun a => branchMatches (validate n v a d p)) with
    | true => simp
    | false =>
      by_cases hl : alts.length > 0
      · simp [hl]
      · simp [hl]
  · rw [hone, hany]
    rw [show jsTruthy (some (Json.arr alts)) = true from rfl]
    rw [if_pos (show ((false || true : Bool) = true) by simp)]
    rw [if_neg (by decide : ¬((false : Bool) = true))]
    show (match someMatch (fun a => validate n v a d p) alts with
      | none => none
      | some m =>
        if (!m && decide (alts.length > 0)) = true then
          some ([], [p ++ ": value doesn't match any of the expected schemas"])
        else some ([], [])) = _
    rw [someMatch_eq_any _ _ hsome]
    cases hA : alts.any (fun a => branchMatches (validate n v a d p)) with
    | true => simp
    | false =>
      by_cases hl : alts.length > 0
      · simp [hl]
      · simp [hl]

theorem validate_union_leniency_witness :
    validate 2 (Json.bool true)
      (Json.obj [("oneOf", Json.arr
        [Json.obj [("type", Json.str "string")], Json.obj [("type", Json.str "number")]])])
      Json.null "$" =
      some ([], ["$: value doesn't match any of the expected schemas"]) := by
  have h := validate_union_leniency 1 (Json.bool true)
    (Json.obj [("oneOf", Json.arr
      [Json.obj [("type", Json.str "string")], Json.obj [("type", Json.str "number")]])])
    Json.null "$"
    [Json.obj [("type", Json.str "string")], Json.obj [("type", Json.str "number")]]
    (by decide) (by decide) (Or.inl (by decide)) (by decide)
  rw [h]
  decide

end QBSpec

namespace QBSpec

/-! ## C9: a schema-valued additionalProperties only suppresses warnings -/

end QBSpec

namespace QBSpec

theorem validate_nonunion (n : Nat) (v s d : Json) (p : String)
    (hs : s ≠ Json.null)
    (href : jsTruthy (jsField s "$ref") = false)
    (hone : jsTruthy (jsField s "oneOf") = false)
    (hany : jsTruthy (jsField s "anyOf") = false)
    (hall : jsTruthy (jsField s "allOf") = false) :
    validate (n + 1) v s d p =
      validateTyped (fun a b c => validate n a b d c) v s p := by
  rw [validate]
  rw [if_neg hs, href]
  rw [if_neg (by decide : ¬((false : Bool) = true))]
  rw [hone, hany]
  rw [if_neg (by decide : ¬((false || false : Bool) = true))]
  rw [hall]
  rw [if_neg (by decide : ¬((false : Bool) = true))]

end QBSpec

namespace QBSpec

end QBSpec

namespace QBSpec

/-! ## C5: which pointers the structural validator actually checks

`refCheck` errors only on the two `#/components/...` prefixes; any other
internal pointer (for example a leftover `#/definitions/...` one) is passed
over silently even when it resolves to nothing. -/

theorem refFold_eq (schemas parameters : List (String × Json)) (rs : List String)
    (acc : List String × List String) :
    rs.foldl
      (fun acc r =>
        let c := refCheck schemas parameters r
        (acc.1 ++ c.1, acc.2 ++ c.2))
      acc =
    (acc.1 ++ rs.flatMap (fun r => (refCheck schemas parameters r).1),
     acc.2 ++ rs.flatMap (fun r => (refCheck schemas parameters r).2)) := by
  induction rs generalizing acc with
  | nil => simp
  | cons r rest ih =>
    simp only [List.foldl_cons, List.flatMap_cons, ih, List.append_assoc]

theorem validateRefs_eq_flatMap (spec : Json) :
    validateRefs spec =
      ((collectedRefs spec).flatMap
        (fun r => (refCheck
          (asObjFields (optChain (jsField spec "components") "schemas"))
          (asObjFields (optChain (jsField spec "components") "parameters")) r).1),
       (collectedRefs spec).flatMap
        (fun r => (refCheck
          (asObjFields (optChain (jsField spec "components") "schemas"))
          (asObjFields (optChain (jsField spec "components") "parameters")) r).2)) := by
  unfold validateRefs
  rw [refFold_eq]
  simp

theorem refCheck_errs_ne_nil (schemas parameters : List (String × Json)) (r : String) :
    (refCheck schemas parameters r).1 ≠ [] ↔
      ((jsStartsWith r "#/components/schemas/" = true ∧
        jsTruthy (jsGet schemas (jsReplaceFirst r "#/components/schemas/" "")) = false) ∨
       (jsStartsWith r "#/components/schemas/" = false ∧
        jsStartsWith r "#/components/parameters/" = true ∧
        jsTruthy (jsGet parameters (jsReplaceFirst r "#/components/parameters/" "")) = false)) := by
  unfold refCheck
  split_ifs <;> simp_all

/-- C5: the structural validator reports an unresolved-pointer error iff
some reachable pointer starts with the schemas or parameters component
prefix and its name has no truthy entry in the respective components map —
not for every reachable pointer that fails to resolve; pointers with any
other internal prefix are silently skipped (see the counterexample). -/
theorem validateRefs_error_iff (spec : Json) :
    (validateRefs spec).1 ≠ [] ↔
      ∃ r ∈ collectedRefs spec,
        ((jsStartsWith r "#/components/schemas/" = true ∧
          jsTruthy (jsGet (asObjFields (optChain (jsField spec "components") "schemas"))
            (jsReplaceFirst r "#/components/schemas/" "")) = false) ∨
         (jsStartsWith r "#/components/schemas/" = false ∧
          jsStartsWith r "#/components/parameters/" = true ∧
          jsTruthy (jsGet (asObjFields (optChain (jsField spec "components") "parameters"))
            (jsReplaceFirst r "#/components/parameters/" "")) = false)) := by
  rw [validateRefs_eq_flatMap]
  constructor
  · intro h
    have h2 : ¬ ∀ r ∈ collectedRefs spec,
        (refCheck (asObjFields (optChain (jsField spec "components") "schemas"))
          (asObjFields (optChain (jsField spec "components") "parameters")) r).1 = [] := by
      intro hall
      exact h (List.flatMap_eq_nil_iff.mpr hall)
    push_neg at h2
    obtain ⟨r, hr, hne⟩ := h2
    exact ⟨r, hr, (refCheck_errs_ne_nil _ _ r).mp hne⟩
  · rintro ⟨r, hr, hcond⟩
    intro hnil
    have := List.flatMap_eq_nil_iff.mp hnil r hr
    exact (refCheck_errs_ne_nil _ _ r).mpr hcond this

/-- A reachable `#/definitions/Foo` pointer resolves to nothing, yet the
structural validator reports no error at all. -/
theorem validateRefs_skips_definitions_ref :
    (validateRefs (Json.obj
      [("paths", Json.obj [("/a", Json.obj [("$ref", Json.str "#/definitions/Foo")])])])).1
        = [] ∧
    "#/definitions/Foo" ∈ collectedRefs (Json.obj
      [("paths", Json.obj [("/a", Json.obj [("$ref", Json.str "#/definitions/Foo")])])]) ∧
    resolveRef "#/definitions/Foo" (Json.obj
      [("paths", Json.obj [("/a", Json.obj [("$ref", Json.str "#/definitions/Foo")])])])
        = none := by
  decide

end QBSpec

namespace QBSpec

/-! ## C6: converter / resolver round trip

`resolveRef` splits the pointer on every `/`, so a definition name that
itself contains a slash produces extra path segments and can never be found
again; the round trip holds exactly for slash-free names. -/

theorem splitOnSlashChars_no_slash (cs : List Char) (h : '/' ∉ cs) :
    splitOnSlashChars cs = [cs] := by
  induction cs with
  | nil => rfl
  | cons c rest ih =>
    have hc : c ≠ '/' := fun he => h (he ▸ List.mem_cons_self c rest)
    have hrest : '/' ∉ rest := fun hm => h (List.mem_cons_of_mem _ hm)
    unfold splitOnSlashChars
    rw [if_neg hc, ih hrest]

theorem splitOnSlashChars_append_slash (a rest : List Char) (h : '/' ∉ a) :
    splitOnSlashChars (a ++ '/' :: rest) = a :: splitOnSlashChars rest := by
  induction a with
  | nil =>
    simp [splitOnSlashChars]
  | cons c tl ih =>
    have hc : c ≠ '/' := fun he => h (he ▸ List.mem_cons_self c tl)
    have htl : '/' ∉ tl := fun hm => h (List.mem_cons_of_mem _ hm)
    simp [splitOnSlashChars, hc, ih htl]

theorem replaceFirstList_hash_slash (cs : List Char) :
    replaceFirstList ['#', '/'] [] ('#' :: '/' :: cs) = cs := by
  unfold replaceFirstList
  rw [if_pos (by simp [List.isPrefixOf])]
  simp

theorem jsGet_map_isSome (l : List (String × Json)) (g : String × Json → Json)
    (k : String) :
    (jsGet (l.map (fun kv => (kv.1, g kv))) k).isSome = (jsGet l k).isSome := by
  induction l with
  | nil => rfl
  | cons kv rest ih =>
    simp only [List.map_cons, jsGet]
    split_ifs <;> simp [ih]

/-- C6: for a name present in the source document's `definitions` map and
containing no slash, resolving the rewritten pointer
`#/components/schemas/` + name against the converted document returns a
node, not the absence signal. The no-slash hypothesis is necessary: see the
counterexample below. -/
theorem convert_resolve_roundtrip (sw : Swagger2Spec) (defs : List (String × Json))
    (name : String)
    (hdefs : sw.definitions = some defs)
    (hmem : (jsGet defs name).isSome = true)
    (hslash : '/' ∉ name.data) :
    (resolveRef ("#/components/schemas/" ++ name)
      (convertSwaggerToOpenAPI sw)).isSome = true := by
  have h1 : jsReplaceFirst ("#/components/schemas/" ++ name) "#/" "" =
      "components/schemas/" ++ name := by
    unfold jsReplaceFirst
    have hd : ("#/components/schemas/" ++ name).data =
        '#' :: '/' :: ("components/schemas/" ++ name).data := by
      rw [String.data_append, String.data_append]
      rfl
    rw [hd]
    rw [show ("#/" : String).data = ['#', '/'] from rfl,
      show ("" : String).data = [] from rfl]
    rw [replaceFirstList_hash_slash]
  have h2 : jsSplitSlash ("components/schemas/" ++ name) =
      ["components", "schemas", name] := by
    unfold jsSplitSlash
    have hd : ("components/schemas/" ++ name).data =
        "components".data ++ '/' :: ("schemas".data ++ '/' :: name.data) := by
      rw [String.data_append]
      rfl
    rw [hd]
    rw [splitOnSlashChars_append_slash _ _ (by decide)]
    rw [splitOnSlashChars_append_slash _ _ (by decide)]
    rw [splitOnSlashChars_no_slash _ hslash]
    rfl
  unfold resolveRef
  rw [h1, h2]
  simp only [List.foldl_cons, List.foldl_nil]
  unfold convertSwaggerToOpenAPI
  rw [hdefs]
  simp only [resolveStep, jsGet, String.reduceEq, reduceIte]
  rw [jsGet_map_isSome defs (fun kv => convertSchemaRef kv.2) name]
  exact hmem

theorem convert_resolve_roundtrip_witness :
    (resolveRef ("#/components/schemas/" ++ "Foo")
      (convertSwaggerToOpenAPI
        { definitions := some [("Foo", Json.obj [("type", Json.str "string")])] })).isSome
      = true :=
  convert_resolve_roundtrip
    { definitions := some [("Foo", Json.obj [("type", Json.str "string")])] }
    [("Foo", Json.obj [("type", Json.str "string")])] "Foo" rfl (by decide) (by decide)

/-- A definition named `A/B` is present in the source map and the converter
rewrites its pointer as the spec describes, yet resolving the rewritten
pointer against the converted document yields the absence signal. -/
theorem convert_resolve_fails_slash_name :
    jsGet [("A/B", Json.obj [("type", Json.str "string")])] "A/B" =
      some (Json.obj [("type", Json.str "string")]) ∧
    jsReplaceFirst "#/definitions/A/B" "#/definitions/" "#/components/schemas/" =
      "#/components/schemas/A/B" ∧
    resolveRef "#/components/schemas/A/B"
      (convertSwaggerToOpenAPI
        { definitions := some [("A/B", Json.obj [("type", Json.str "string")])] }) = none := by
  refine ⟨by decide, by decide, ?_⟩
  decide

end QBSpec

namespace QBSpec

/-! ## C8: at-most-once fixture generation

`GenOk g dir` captures the two facts the generator's write guard gives every
candidate batch: each written file lands in `dir` under a name not in the
listing snapshot, and a later listing that contains every previously written
name (and the old listing) produces no writes at all. -/

def fsListing (F : List (String × String)) (dir : String) : List String :=
  (F.filter (fun e => e.1 = dir)).map (fun e => e.2)

def dirOf (operation : Json) : String :=
  fixtureDirOf (tagOf operation) (opIdStringOf operation)

def GenOk (g : List String → List ((String × String) × Json) × Nat) (dir : String) :
    Prop :=
  (∀ ex, ∀ e ∈ (g ex).1, e.1.1 = dir ∧ e.1.2 ∉ ex) ∧
  (∀ ex ex', (∀ e ∈ (g ex).1, e.1.2 ∈ ex') → (∀ n ∈ ex, n ∈ ex') → (g ex').1 = [])

theorem genOk_const (dir : String) : GenOk (fun _ => ([], 0)) dir :=
  ⟨fun _ e he => absurd he (by simp), fun _ _ _ _ => rfl⟩

theorem genOk_write (dir name : String) (content : Json) :
    GenOk (fun ex => writeUnlessExists ex dir name content) dir := by
  constructor
  · intro ex e he
    simp only [writeUnlessExists] at he
    split_ifs at he with h
    · simp at he
    · simp at he
      subst he
      exact ⟨rfl, fun hm => h (by simpa using hm)⟩
  · intro ex ex' h1 h2
    simp only [writeUnlessExists]
    split_ifs with h
    · rfl
    · exfalso
      have hmem : name ∈ ex' := by
        by_cases hex : name ∈ ex
        · exact h2 name hex
        · apply h1 ((dir, name), content)
          simp only [writeUnlessExists]
          rw [if_neg (fun hc => hex (by simpa using hc))]
          simp
      exact h (by simpa using hmem)

theorem genOk_append (g1 g2 : List String → List ((String × String) × Json) × Nat)
    (dir : String) (h1 : GenOk g1 dir) (h2 : GenOk g2 dir) :
    GenOk (fun ex => ((g1 ex).1 ++ (g2 ex).1, (g1 ex).2 + (g2 ex).2)) dir := by
  constructor
  · intro ex e he
    simp only [List.mem_append] at he
    rcases he with he | he
    · exact h1.1 ex e he
    · exact h2.1 ex e he
  · intro ex ex' ha hb
    simp only [List.append_eq_nil]
    constructor
    · exact h1.2 ex ex' (fun e he => ha e (by simp [he])) hb
    · exact h2.2 ex ex' (fun e he => ha e (by simp [he])) hb

theorem accumFixtures_eq_flatMap (f : α → List ((String × String) × Json) × Nat)
    (xs : List α) (acc : List ((String × String) × Json) × Nat) :
    xs.foldl (fun acc a => let r := f a; (acc.1 ++ r.1, acc.2 + r.2)) acc =
      (acc.1 ++ xs.flatMap (fun a => (f a).1),
       acc.2 + (xs.map (fun a => (f a).2)).sum) := by
  induction xs generalizing acc with
  | nil => simp
  | cons a rest ih =>
    simp only [List.foldl_cons, List.flatMap_cons, List.map_cons, List.sum_cons, ih,
      List.append_assoc]
    rw [Nat.add_assoc]

theorem genOk_accum (f : List String → α → List ((String × String) × Json) × Nat)
    (xs : List α) (dir : String)
    (h : ∀ a ∈ xs, GenOk (fun ex => f ex a) dir) :
    GenOk (fun ex => accumFixtures (fun a => f ex a) xs) dir := by
  have heq : ∀ ex, (accumFixtures (fun a => f ex a) xs).1 =
      xs.flatMap (fun a => (f ex a).1) := by
    intro ex
    unfold accumFixtures
    rw [accumFixtures_eq_flatMap]
    simp
  constructor
  · intro ex e he
    rw [heq] at he
    simp only [List.mem_flatMap] at he
    obtain ⟨a, ha, hea⟩ := he
    exact (h a ha).1 ex e hea
  · intro ex ex' ha hb
    rw [heq]
    apply List.flatMap_eq_nil_iff.mpr
    intro a haxs
    apply (h a haxs).2 ex ex' _ hb
    intro e he
    apply ha e
    rw [heq]
    exact List.mem_flatMap.mpr ⟨a, haxs, he⟩

theorem genOk_req (op : Json) (tag : String) :
    GenOk (fun ex => reqPartOf op tag ex) (fixtureDirOf tag (opIdStringOf op)) := by
  unfold reqPartOf
  cases hc : jsTruthy (jsFieldChain op
      ["requestBody", "content", "application/json", "schema", "example"]) with
  | true =>
    simp only [hc, if_true]
    exact genOk_write _ _ _
  | false =>
    simp only [hc, Bool.false_eq_true, if_false]
    exact genOk_const _

theorem genOk_resp (op : Json) (tag : String) :
    GenOk (fun ex => respPartOf op tag ex) (fixtureDirOf tag (opIdStringOf op)) := by
  unfold respPartOf
  cases hr : jsField op "responses" with
  | none => exact genOk_const _
  | some v =>
    cases v with
    | obj rs =>
      refine genOk_accum _ rs _ (fun kv hkv => ?_)
      cases hp : jsParseInt kv.1 with
      | none => exact genOk_const _
      | some status =>
        simp only
        cases hs : jsTruthy (jsFieldChain kv.2 ["content", "application/json", "schema"]) with
        | false =>
          simp only [hs, Bool.false_eq_true, if_false]
          exact genOk_const _
        | true =>
          simp only [hs, if_true]
          cases hx : jsTruthy (jsField
              ((jsFieldChain kv.2 ["content", "application/json", "schema"]).getD Json.null)
              "x-amf-examples") with
          | true =>
            simp only [hx, if_true]
            cases he : jsField
                ((jsFieldChain kv.2 ["content", "application/json", "schema"]).getD Json.null)
                "x-amf-examples" with
            | none => exact genOk_const _
            | some ev =>
              cases ev with
              | obj exEntries =>
                match exEntries with
                | [] => exact genOk_accum _ [] _ (fun ne hne => absurd hne (by simp))
                | [single] => exact genOk_write _ _ _
                | a :: b :: t =>
                  exact genOk_accum _ (a :: b :: t) _ (fun ne hne => genOk_write _ _ _)
              | null => exact genOk_const _
              | bool x => exact genOk_const _
              | num x => exact genOk_const _
              | str x => exact genOk_const _
              | arr x => exact genOk_const _
          | false =>
            simp only [hx, Bool.false_eq_true, if_false]
            cases hex : jsTruthy (jsField
                ((jsFieldChain kv.2 ["content", "application/json", "schema"]).getD Json.null)
                "example") with
            | true =>
              simp only [hex, if_true]
              exact genOk_write _ _ _
            | false =>
              simp only [hex, Bool.false_eq_true, if_false]
              exact genOk_const _
    | null => exact genOk_const _
    | bool x => exact genOk_const _
    | num x => exact genOk_const _
    | str x => exact genOk_const _
    | arr x => exact genOk_const _

theorem genOk_operation (op : Json) (tag : String) :
    GenOk (fun ex => generateOperationFixtures op tag ex)
      (fixtureDirOf tag (opIdStringOf op)) := by
  unfold generateOperationFixtures
  exact genOk_append _ _ _ (genOk_req op tag) (genOk_resp op tag)

theorem fsListing_append (F G : List (String × String)) (dir : String) :
    fsListing (F ++ G) dir = fsListing F dir ++ fsListing G dir := by
  simp [fsListing, List.filter_append]

theorem mem_fsListing_of_mem (F : List (String × String)) (e : String × String)
    (h : e ∈ F) : e.2 ∈ fsListing F e.1 := by
  simp only [fsListing, List.mem_map, List.mem_filter]
  exact ⟨e, ⟨h, by simp⟩, rfl⟩

def covered (F : List (String × String)) (op : Json) : Prop :=
  (generateOperationFixtures op (tagOf op) (fsListing F (dirOf op))).1 = []

theorem generateStep_eq (F : List (String × String)) (a b : Nat) (op : Json) :
    generateStep (F, a, b) op =
      (F ++ ((generateOperationFixtures op (tagOf op)
          (fsListing F (dirOf op))).1.map (fun f => f.1)),
       a + (generateOperationFixtures op (tagOf op)
          (fsListing F (dirOf op))).1.length,
       b + (generateOperationFixtures op (tagOf op)
          (fsListing F (dirOf op))).2) := rfl

theorem covered_mono (F G : List (String × String)) (op : Json)
    (h : covered F op) : covered (F ++ G) op := by
  unfold covered at h ⊢
  apply (genOk_operation op (tagOf op)).2 (fsListing F (dirOf op))
  · intro e he
    rw [h] at he
    exact absurd he (by simp)
  · intro n hn
    rw [fsListing_append]
    exact List.mem_append_left _ hn

theorem covered_after_step (F : List (String × String)) (a b : Nat) (op : Json) :
    covered ((generateStep (F, a, b) op).1) op := by
  rw [generateStep_eq]
  unfold covered
  apply (genOk_operation op (tagOf op)).2 (fsListing F (dirOf op))
  · intro e he
    have h1 := ((genOk_operation op (tagOf op)).1 (fsListing F (dirOf op)) e he).1
    rw [fsListing_append]
    apply List.mem_append_right
    have : e.1 ∈ (generateOperationFixtures op (tagOf op)
        (fsListing F (dirOf op))).1.map (fun f => f.1) :=
      List.mem_map.mpr ⟨e, he, rfl⟩
    have h2 := mem_fsListing_of_mem _ e.1 this
    rw [h1] at h2
    exact h2
  · intro n hn
    rw [fsListing_append]
    exact List.mem_append_left _ hn

theorem covered_step_preserve (st : List (String × String) × Nat × Nat) (o q : Json)
    (h : covered st.1 q) : covered ((generateStep st o).1) q := by
  obtain ⟨F, a, b⟩ := st
  rw [generateStep_eq]
  exact covered_mono _ _ _ h

theorem foldl_preserves_covered (ops : List Json)
    (st : List (String × String) × Nat × Nat) (q : Json) (h : covered st.1 q) :
    covered ((ops.foldl generateStep st).1) q := by
  induction ops generalizing st with
  | nil => exact h
  | cons o rest ih =>
    rw [List.foldl_cons]
    exact ih _ (covered_step_preserve st o q h)

theorem foldl_covers (ops : List Json) (st : List (String × String) × Nat × Nat) :
    ∀ op ∈ ops, covered ((ops.foldl generateStep st).1) op := by
  induction ops generalizing st with
  | nil => simp
  | cons o rest ih =>
    intro op hop
    rw [List.foldl_cons]
    rcases List.mem_cons.mp hop with rfl | hop2
    · obtain ⟨F, a, b⟩ := st
      exact foldl_preserves_covered rest _ op (covered_after_step F a b op)
    · exact ih _ op hop2

theorem generateStep_covered_noop (F : List (String × String)) (a b : Nat) (op : Json)
    (h : covered F op) :
    generateStep (F, a, b) op =
      (F, a, b + (generateOperationFixtures op (tagOf op)
        (fsListing F (dirOf op))).2) := by
  rw [generateStep_eq]
  unfold covered at h
  rw [h]
  simp

theorem foldl_covered_noop (ops : List Json) (F : List (String × String)) (a b : Nat)
    (h : ∀ op ∈ ops, covered F op) :
    (ops.foldl generateStep (F, a, b)).1 = F ∧
      (ops.foldl generateStep (F, a, b)).2.1 = a := by
  induction ops generalizing b with
  | nil => exact ⟨rfl, rfl⟩
  | cons o rest ih =>
    rw [List.foldl_cons, generateStep_covered_noop F a b o (h o (List.mem_cons_self _ _))]
    exact ih _ (fun op hop => h op (List.mem_cons_of_mem _ hop))

/-- C8: a fixture is written only when no file of that name exists in its
target directory listing (an existing name is never overwritten and counts
as skipped), and a second generation run over the filesystem produced by the
first writes zero new files and leaves the file set unchanged. -/
theorem generate_at_most_once :
    (∀ existing dir name (content : Json),
      (name ∈ existing → writeUnlessExists existing dir name content = ([], 1)) ∧
      (name ∉ existing → writeUnlessExists existing dir name content =
        ([((dir, name), content)], 0))) ∧
    (∀ spec fs0,
      (generateRun spec (generateRun spec fs0).1).1 = (generateRun spec fs0).1 ∧
      (generateRun spec (generateRun spec fs0).1).2.1 = 0) := by
  constructor
  · intro existing dir name content
    constructor
    · intro h
      unfold writeUnlessExists
      rw [if_pos (by simpa using h)]
    · intro h
      unfold writeUnlessExists
      rw [if_neg (fun hc => h (by simpa using hc))]
  · intro spec fs0
    unfold generateRun
    exact foldl_covered_noop (opsOf spec) _ 0 0
      (fun op hop => foldl_covers (opsOf spec) (fs0, 0, 0) op hop)

end QBSpec

namespace QBSpec

/-! ## C1: termination of the schema validator

No depth guard exists anywhere in the walk: a pointer chain that cycles
back to itself recurses until the stack blows, consuming any amount of
fuel (`cyclicSchema` below). Termination does hold when the schema node is
`benign` and the document is hereditarily `refFree`, so that every pointer
chain ends after a single hop. -/

def cyclicSchema : Json := Json.obj [("$ref", Json.str "#/A")]

def cyclicDoc : Json := Json.obj [("A", cyclicSchema)]

theorem cyclic_none : ∀ n, validate n Json.null cyclicSchema cyclicDoc "$" = none := by
  intro n
  induction n with
  | zero => rfl
  | succ m ih =>
    rw [validate]
    rw [if_neg (by decide : ¬(cyclicSchema = Json.null))]
    rw [if_pos (by decide : (jsTruthy (jsField cyclicSchema "$ref") = true))]
    exact ih

/-- A self-referential pointer chain: no amount of fuel makes the
validator return, because each hop resolves back to the same node and no
depth guard interrupts it. -/
theorem validate_cyclic_diverges :
    ¬ ∃ n, (validate n Json.null cyclicSchema cyclicDoc "$").isSome = true := by
  rintro ⟨n, hn⟩
  rw [cyclic_none n] at hn
  exact absurd hn (by decide)

theorem seqFold_isSome (f : α → Option (List String × List String)) (xs : List α)
    (h : ∀ a ∈ xs, (f a).isSome = true) : (seqFold f xs).isSome = true := by
  unfold seqFold
  suffices hgen : ∀ acc : List String × List String,
      (xs.foldl
        (fun acc a =>
          match acc with
          | none => none
          | some (es, ws) =>
            match f a with
            | none => none
            | some (es2, ws2) => some (es ++ es2, ws ++ ws2))
        (some acc)).isSome = true by
    exact hgen ([], [])
  induction xs with
  | nil => intro acc; rfl
  | cons a rest ih =>
    intro acc
    obtain ⟨es, ws⟩ := acc
    obtain ⟨⟨es2, ws2⟩, hfa⟩ := Option.isSome_iff_exists.mp (h a (List.mem_cons_self _ _))
    simp only [List.foldl_cons, hfa]
    exact ih (fun x hx => h x (List.mem_cons_of_mem _ hx)) _

theorem benign_of_get (fields : List (String × Json)) (k : String) (v : Json)
    (hb : benignFields fields = true) (hg : jsGet fields k = some v) :
    benign v = true := by
  induction fields with
  | nil => exact absurd hg (by simp [jsGet])
  | cons kv rest ih =>
    unfold benignFields at hb
    simp only [Bool.and_eq_true] at hb
    unfold jsGet at hg
    split_ifs at hg with hk
    · cases hg; exact hb.1
    · exact ih hb.2 hg

theorem benignList_mem (xs : List Json) (x : Json) (hb : benignList xs = true)
    (hm : x ∈ xs) : benign x = true := by
  induction xs with
  | nil => exact absurd hm (by simp)
  | cons a rest ih =>
    unfold benignList at hb
    simp only [Bool.and_eq_true] at hb
    rcases List.mem_cons.mp hm with rfl | hm2
    · exact hb.1
    · exact ih hb.2 hm2

theorem refFree_of_get (fields : List (String × Json)) (k : String) (v : Json)
    (hb : refFreeFields fields = true) (hg : jsGet fields k = some v) :
    refFree v = true := by
  induction fields with
  | nil => exact absurd hg (by simp [jsGet])
  | cons kv rest ih =>
    unfold refFreeFields at hb
    simp only [Bool.and_eq_true] at hb
    unfold jsGet at hg
    split_ifs at hg with hk
    · cases hg; exact hb.1
    · exact ih hb.2 hg

theorem refFreeList_mem (xs : List Json) (x : Json) (hb : refFreeList xs = true)
    (hm : x ∈ xs) : refFree x = true := by
  induction xs with
  | nil => exact absurd hm (by simp)
  | cons a rest ih =>
    unfold refFreeList at hb
    simp only [Bool.and_eq_true] at hb
    rcases List.mem_cons.mp hm with rfl | hm2
    · exact hb.1
    · exact ih hb.2 hm2

theorem arrIfTruthy_cases (fields : List (String × Json)) (k : String)
    (h : arrIfTruthy fields k = true) (ht : jsTruthy (jsGet fields k) = true) :
    ∃ xs, jsGet fields k = some (Json.arr xs) := by
  unfold arrIfTruthy at h
  cases hg : jsGet fields k with
  | none => rw [hg] at ht; exact absurd ht (by decide)
  | some v =>
    rw [hg] at h ht
    cases v with
    | arr xs => exact ⟨xs, rfl⟩
    | null => exact absurd ht (by decide)
    | bool b => simp_all
    | num m => simp_all
    | str t => simp_all
    | obj fs => simp_all

theorem objIfTruthy_cases (fields : List (String × Json)) (k : String)
    (h : objIfTruthy fields k = true) (ht : jsTruthy (jsGet fields k) = true) :
    ∃ fs, jsGet fields k = some (Json.obj fs) := by
  unfold objIfTruthy at h
  cases hg : jsGet fields k with
  | none => rw [hg] at ht; exact absurd ht (by decide)
  | some v =>
    rw [hg] at h ht
    cases v with
    | obj fs => exact ⟨fs, rfl⟩
    | null => exact absurd ht (by decide)
    | bool b => simp_all
    | num m => simp_all
    | str t => simp_all
    | arr xs => simp_all

theorem strIfTruthy_cases (fields : List (String × Json)) (k : String)
    (h : strIfTruthy fields k = true) (ht : jsTruthy (jsGet fields k) = true) :
    ∃ r, jsGet fields k = some (Json.str r) := by
  unfold strIfTruthy at h
  cases hg : jsGet fields k with
  | none => rw [hg] at ht; exact absurd ht (by decide)
  | some v =>
    rw [hg] at h ht
    cases v with
    | str r => exact ⟨r, rfl⟩
    | null => exact absurd ht (by decide)
    | bool b => simp_all
    | num m => simp_all
    | arr xs => simp_all
    | obj fs => simp_all

theorem validateTyped_noField
    (go : Json → Json → String → Option (List String × List String))
    (v t : Json) (p : String) (ht : ∀ k, jsField t k = none) :
    validateTyped go v t p = some ([], []) := by
  have hA : validateArr go v t p = some ([], []) := by
    unfold validateArr
    rw [ht "type"]
    rw [if_neg (by simp)]
  have hO : validateObj go v t p = some ([], []) := by
    unfold validateObj
    rw [ht "type"]
    rw [if_neg (by simp)]
  have hS : validateStructuralRes go v t p = some ([], []) := by
    unfold validateStructuralRes
    rw [hA, hO]
    rfl
  unfold validateTyped
  rw [ht "type"]
  rw [if_neg (by decide : ¬(jsTruthy none = true))]
  exact hS

theorem validateArr_isSome
    (go : Json → Json → String → Option (List String × List String))
    (v : Json) (fields : List (String × Json)) (p : String)
    (hitems : ∀ v' c p', jsGet fields "items" = some c → (go v' c p').isSome = true) :
    (validateArr go v (Json.obj fields) p).isSome = true := by
  unfold validateArr
  simp only [jsField]
  split_ifs with h1
  · cases v with
    | arr elems =>
      cases hi : jsGet fields "items" with
      | none => rfl
      | some items =>
        simp only
        split_ifs with h2
        · apply seqFold_isSome
          intro a ha
          exact hitems a.2 items _ hi
        · rfl
    | null => rfl
    | bool b => rfl
    | num m => rfl
    | str t => rfl
    | obj fs => rfl
  · rfl

theorem validateObj_isSome
    (go : Json → Json → String → Option (List String × List String))
    (v : Json) (fields : List (String × Json)) (p : String)
    (hreq : arrIfTruthy fields "required" = true)
    (hprop : objIfTruthy fields "properties" = true)
    (hprops : ∀ v' c p' props k2, jsGet fields "properties" = some (Json.obj props) →
      (k2, c) ∈ props → (go v' c p').isSome = true) :
    (validateObj go v (Json.obj fields) p).isSome = true := by
  unfold validateObj
  simp only [jsField]
  split_ifs with h1
  · cases v with
    | obj vfields =>
      unfold validateObjFields
      simp only [jsField]
      split_ifs with h2
      · obtain ⟨props, hpg⟩ := objIfTruthy_cases fields "properties" hprop h2
        rw [hpg]
        have hreqSome : (reqErrsOf vfields (Json.obj fields) p).isSome = true := by
          unfold reqErrsOf
          simp only [jsField]
          split_ifs with hrt
          · obtain ⟨rs, hrg⟩ := arrIfTruthy_cases fields "required" hreq hrt
            rw [hrg]
            rfl
          · rfl
        obtain ⟨res, hres⟩ := Option.isSome_iff_exists.mp hreqSome
        have hpf : (propsFold go vfields props p).isSome = true := by
          unfold propsFold
          apply seqFold_isSome
          intro kv hkv
          split_ifs with hk
          · cases hg : jsGet vfields kv.1 with
            | none => rfl
            | some pv => exact hprops pv kv.2 _ props kv.1 hpg hkv
          · rfl
        obtain ⟨⟨pes, pws⟩, hpes⟩ := Option.isSome_iff_exists.mp hpf
        simp only [hres, hpes, Option.isSome_some]
      · rfl
    | null => rfl
    | bool b => rfl
    | num m => rfl
    | str t => rfl
    | arr xs => rfl
  · rfl

theorem validateTyped_isSome
    (go : Json → Json → String → Option (List String × List String))
    (v : Json) (fields : List (String × Json)) (p : String)
    (hshape : shapeOk fields = true)
    (hitems : ∀ v' c p', jsGet fields "items" = some c → (go v' c p').isSome = true)
    (hprops : ∀ v' c p' props k2, jsGet fields "properties" = some (Json.obj props) →
      (k2, c) ∈ props → (go v' c p').isSome = true) :
    (validateTyped go v (Json.obj fields) p).isSome = true := by
  have hshape' := hshape
  unfold shapeOk at hshape'
  simp only [Bool.and_eq_true] at hshape'
  obtain ⟨⟨⟨⟨⟨hsref, hone⟩, hany⟩, hall⟩, hreq⟩, hprop⟩ := hshape'
  have harr := validateArr_isSome go v fields p hitems
  have hobj := validateObj_isSome go v fields p hreq hprop hprops
  have hstruct : (validateStructuralRes go v (Json.obj fields) p).isSome = true := by
    unfold validateStructuralRes
    obtain ⟨⟨aes, aws⟩, ha⟩ := Option.isSome_iff_exists.mp harr
    obtain ⟨⟨oes, ows⟩, ho⟩ := Option.isSome_iff_exists.mp hobj
    rw [ha, ho]
    rfl
  unfold validateTyped
  split_ifs with h1 h2 h3
  · exact hstruct
  · rfl
  · rfl
  · exact hstruct

theorem refFreeFields_mem (props : List (String × Json)) (k : String) (c : Json)
    (hb : refFreeFields props = true) (hm : (k, c) ∈ props) : refFree c = true := by
  induction props with
  | nil => exact absurd hm (by simp)
  | cons kv rest ih =>
    unfold refFreeFields at hb
    simp only [Bool.and_eq_true] at hb
    rcases List.mem_cons.mp hm with he | hm2
    · rw [← he] at hb; exact hb.1
    · exact ih hb.2 hm2

theorem benignFields_mem (props : List (String × Json)) (k : String) (c : Json)
    (hb : benignFields props = true) (hm : (k, c) ∈ props) : benign c = true := by
  induction props with
  | nil => exact absurd hm (by simp)
  | cons kv rest ih =>
    unfold benignFields at hb
    simp only [Bool.and_eq_true] at hb
    rcases List.mem_cons.mp hm with he | hm2
    · rw [← he] at hb; exact hb.1
    · exact ih hb.2 hm2

theorem sizeOf_snd_lt_of_mem (props : List (String × Json)) (k : String) (c : Json)
    (hm : (k, c) ∈ props) : sizeOf c < sizeOf props := by
  have h1 := List.sizeOf_lt_of_mem hm
  simp only [Prod.mk.sizeOf_spec] at h1
  omega

theorem validate_refFree_isSome (d : Json) :
    ∀ n (t v : Json) (p : String), refFree t = true → sizeOf t < n →
      (validate n v t d p).isSome = true := by
  intro n
  induction n with
  | zero => intro t v p _ h; exact absurd h (by omega)
  | succ m ih =>
    intro t v p hrf hsz
    cases t with
    | null => exact absurd hrf (by decide)
    | bool b =>
      rw [validate_nonunion m v (Json.bool b) d p (fun h => Json.noConfusion h) rfl rfl rfl rfl]
      rw [validateTyped_noField _ v (Json.bool b) p (fun k => rfl)]
      rfl
    | num q =>
      rw [validate_nonunion m v (Json.num q) d p (fun h => Json.noConfusion h) rfl rfl rfl rfl]
      rw [validateTyped_noField _ v (Json.num q) p (fun k => rfl)]
      rfl
    | str s2 =>
      rw [validate_nonunion m v (Json.str s2) d p (fun h => Json.noConfusion h) rfl rfl rfl rfl]
      rw [validateTyped_noField _ v (Json.str s2) p (fun k => rfl)]
      rfl
    | arr xs =>
      rw [validate_nonunion m v (Json.arr xs) d p (fun h => Json.noConfusion h) rfl rfl rfl rfl]
      rw [validateTyped_noField _ v (Json.arr xs) p (fun k => rfl)]
      rfl
    | obj fields =>
      have hrf' := hrf
      unfold refFree at hrf'
      simp only [Bool.and_eq_true] at hrf'
      obtain ⟨⟨hshape, hnoref⟩, hfields⟩ := hrf'
      have href : jsTruthy (jsField (Json.obj fields) "$ref") = false := by
        simpa using hnoref
      have hsh := hshape
      unfold shapeOk at hsh
      simp only [Bool.and_eq_true] at hsh
      obtain ⟨⟨⟨⟨⟨hsref, honeA⟩, hanyA⟩, hallA⟩, hreqA⟩, hpropO⟩ := hsh
      have hszm : sizeOf fields < m := by
        simp only [Json.obj.sizeOf_spec] at hsz
        omega
      have hAlts : ∀ key alts, jsGet fields key = some (Json.arr alts) →
          ∀ a ∈ alts, (validate m v a d p).isSome = true := by
        intro key alts hkey a ha
        apply ih a v p
        · have h1 := refFree_of_get fields key _ hfields hkey
          unfold refFree at h1
          exact refFreeList_mem alts a h1 ha
        · have h1 := List.sizeOf_lt_of_mem ha
          have h2 := jsGet_sizeOf_lt fields key _ hkey
          simp only [Json.arr.sizeOf_spec] at h2
          omega
      have hAltsAll : ∀ key alts (v2 : Json), jsGet fields key = some (Json.arr alts) →
          ∀ a ∈ alts, (validate m v2 a d p).isSome = true := by
        intro key alts v2 hkey a ha
        apply ih a v2 p
        · have h1 := refFree_of_get fields key _ hfields hkey
          unfold refFree at h1
          exact refFreeList_mem alts a h1 ha
        · have h1 := List.sizeOf_lt_of_mem ha
          have h2 := jsGet_sizeOf_lt fields key _ hkey
          simp only [Json.arr.sizeOf_spec] at h2
          omega
      rw [validate]
      rw [if_neg (fun h => Json.noConfusion h)]
      rw [href]
      rw [if_neg (by decide : ¬((false : Bool) = true))]
      by_cases hun : (jsTruthy (jsField (Json.obj fields) "oneOf") ||
          jsTruthy (jsField (Json.obj fields) "anyOf")) = true
      · rw [if_pos hun]
        by_cases hone : jsTruthy (jsField (Json.obj fields) "oneOf") = true
        · obtain ⟨alts, halts⟩ := arrIfTruthy_cases fields "oneOf" honeA hone
          rw [if_pos hone]
          rw [show jsField (Json.obj fields) "oneOf" = jsGet fields "oneOf" from rfl, halts]
          show (match someMatch (fun a => validate m v a d p) alts with
            | none => none
            | some mm =>
              if (!mm && decide (alts.length > 0)) = true then
                some ([], [p ++ ": value doesn\'t match any of the expected schemas"])
              else some ([], [])).isSome = true
          rw [someMatch_eq_any _ _ (hAlts "oneOf" alts halts)]
          show (if (!(alts.any fun a => branchMatches (validate m v a d p)) &&
              decide (alts.length > 0)) = true then
              some ([], [p ++ ": value doesn\'t match any of the expected schemas"])
            else some ([], [])).isSome = true
          split_ifs <;> rfl
        · have hany : jsTruthy (jsField (Json.obj fields) "anyOf") = true := by
            have hor : jsTruthy (jsField (Json.obj fields) "oneOf") = true ∨
                jsTruthy (jsField (Json.obj fields) "anyOf") = true := by
              simpa using hun
            rcases hor with h | h
            · exact absurd h hone
            · exact h
          obtain ⟨alts, halts⟩ := arrIfTruthy_cases fields "anyOf" hanyA hany
          rw [if_neg hone]
          rw [show jsField (Json.obj fields) "anyOf" = jsGet fields "anyOf" from rfl, halts]
          show (match someMatch (fun a => validate m v a d p) alts with
            | none => none
            | some mm =>
              if (!mm && decide (alts.length > 0)) = true then
                some ([], [p ++ ": value doesn\'t match any of the expected schemas"])
              else some ([], [])).isSome = true
          rw [someMatch_eq_any _ _ (hAlts "anyOf" alts halts)]
          show (if (!(alts.any fun a => branchMatches (validate m v a d p)) &&
              decide (alts.length > 0)) = true then
              some ([], [p ++ ": value doesn\'t match any of the expected schemas"])
            else some ([], [])).isSome = true
          split_ifs <;> rfl
      · rw [if_neg hun]
        by_cases hall : jsTruthy (jsField (Json.obj fields) "allOf") = true
        · rw [if_pos hall]
          obtain ⟨subs, hsubs⟩ := arrIfTruthy_cases fields "allOf" hallA hall
          rw [show jsField (Json.obj fields) "allOf" = jsGet fields "allOf" from rfl, hsubs]
          exact seqFold_isSome _ _ (hAlts "allOf" subs hsubs)
        · rw [if_neg hall]
          apply validateTyped_isSome _ _ _ _ hshape
          · intro v2 c p2 hc
            apply ih c v2 p2 (refFree_of_get fields "items" c hfields hc)
            have h1 := jsGet_sizeOf_lt fields "items" c hc
            omega
          · intro v2 c p2 props k2 hpg hmem
            apply ih c v2 p2
            · have h1 := refFree_of_get fields "properties" _ hfields hpg
              unfold refFree at h1
              simp only [Bool.and_eq_true] at h1
              exact refFreeFields_mem props k2 c h1.2 hmem
            · have h1 := sizeOf_snd_lt_of_mem props k2 c hmem
              have h2 := jsGet_sizeOf_lt fields "properties" _ hpg
              simp only [Json.obj.sizeOf_spec] at h2
              omega

theorem resolveStep_refFree (c : Json) (part : String) (t : Json)
    (hc : refFree c = true) (h : resolveStep c part = some t) :
    refFree t = true ∧ sizeOf t < sizeOf c := by
  unfold resolveStep at h
  cases c with
  | obj fields =>
    unfold refFree at hc
    simp only [Bool.and_eq_true] at hc
    refine ⟨refFree_of_get fields part t hc.2 h, ?_⟩
    have h2 := jsGet_sizeOf_lt fields part t h
    simp only [Json.obj.sizeOf_spec]
    omega
  | arr elems =>
    have h2 : (match part.toNat? with
        | some i => if toString i = part then elems.get? i else none
        | none => none) = some t := h
    clear h
    cases hn : part.toNat? with
    | none => rw [hn] at h2; cases h2
    | some idx =>
      rw [hn] at h2
      have h4 : (if toString idx = part then elems.get? idx else none) = some t := h2
      clear h2
      split_ifs at h4 with hi
      · have hm : t ∈ elems := List.get?_mem h4
        unfold refFree at hc
        refine ⟨refFreeList_mem elems t hc hm, ?_⟩
        have h3 := List.sizeOf_lt_of_mem hm
        simp only [Json.arr.sizeOf_spec]
        omega
  | null => cases h
  | bool b => cases h
  | num q => cases h
  | str s2 => cases h

theorem resolveFold_none (parts : List String) :
    parts.foldl
      (fun current part =>
        match current with
        | some c => resolveStep c part
        | none => none)
      none = none := by
  induction parts with
  | nil => rfl
  | cons q rest ih => simpa [List.foldl_cons] using ih

theorem resolveFold_refFree (parts : List String) :
    ∀ (c t : Json), refFree c = true →
    parts.foldl
      (fun current part =>
        match current with
        | some c2 => resolveStep c2 part
        | none => none)
      (some c) = some t →
    refFree t = true ∧ sizeOf t ≤ sizeOf c := by
  induction parts with
  | nil =>
    intro c t hc h
    simp only [List.foldl_nil, Option.some.injEq] at h
    subst h
    exact ⟨hc, Nat.le_refl _⟩
  | cons q rest ih =>
    intro c t hc h
    simp only [List.foldl_cons] at h
    cases hs : resolveStep c q with
    | none =>
      rw [hs] at h
      rw [resolveFold_none] at h
      cases h
    | some c2 =>
      rw [hs] at h
      obtain ⟨h1, h2⟩ := resolveStep_refFree c q c2 hc hs
      obtain ⟨h3, h4⟩ := ih c2 t h1 h
      exact ⟨h3, by omega⟩

theorem splitOnSlashChars_ne_nil (cs : List Char) : splitOnSlashChars cs ≠ [] := by
  cases cs with
  | nil => simp [splitOnSlashChars]
  | cons c cs2 =>
    unfold splitOnSlashChars
    split_ifs
    · simp
    · cases splitOnSlashChars cs2 <;> simp

theorem resolveRef_refFree (r : String) (d t : Json) (hd : refFree d = true)
    (h : resolveRef r d = some t) : refFree t = true ∧ sizeOf t < sizeOf d := by
  unfold resolveRef at h
  cases hp : jsSplitSlash (jsReplaceFirst r "#/" "") with
  | nil =>
    exfalso
    unfold jsSplitSlash at hp
    exact splitOnSlashChars_ne_nil _ (List.map_eq_nil_iff.mp hp)
  | cons q rest =>
    rw [hp] at h
    simp only [List.foldl_cons] at h
    cases hs : resolveStep d q with
    | none =>
      rw [hs] at h
      rw [resolveFold_none] at h
      cases h
    | some c2 =>
      rw [hs] at h
      obtain ⟨h1, h2⟩ := resolveStep_refFree d q c2 hd hs
      obtain ⟨h3, h4⟩ := resolveFold_refFree rest c2 t h1 h
      exact ⟨h3, by omega⟩

theorem validate_benign_isSome (d : Json) (hd : refFree d = true) :
    ∀ n (s v : Json) (p : String), benign s = true → sizeOf s + sizeOf d < n →
      (validate n v s d p).isSome = true := by
  intro n
  induction n with
  | zero => intro s v p _ h; exact absurd h (by omega)
  | succ m ih =>
    intro s v p hb hsz
    cases s with
    | null => exact absurd hb (by decide)
    | bool b =>
      rw [validate_nonunion m v (Json.bool b) d p (fun h => Json.noConfusion h) rfl rfl rfl rfl]
      rw [validateTyped_noField _ v (Json.bool b) p (fun k => rfl)]
      rfl
    | num q =>
      rw [validate_nonunion m v (Json.num q) d p (fun h => Json.noConfusion h) rfl rfl rfl rfl]
      rw [validateTyped_noField _ v (Json.num q) p (fun k => rfl)]
      rfl
    | str s2 =>
      rw [validate_nonunion m v (Json.str s2) d p (fun h => Json.noConfusion h) rfl rfl rfl rfl]
      rw [validateTyped_noField _ v (Json.str s2) p (fun k => rfl)]
      rfl
    | arr xs =>
      rw [validate_nonunion m v (Json.arr xs) d p (fun h => Json.noConfusion h) rfl rfl rfl rfl]
      rw [validateTyped_noField _ v (Json.arr xs) p (fun k => rfl)]
      rfl
    | obj fields =>
      have hb' := hb
      unfold benign at hb'
      simp only [Bool.and_eq_true] at hb'
      obtain ⟨hshape, hfields⟩ := hb'
      have hsh := hshape
      unfold shapeOk at hsh
      simp only [Bool.and_eq_true] at hsh
      obtain ⟨⟨⟨⟨⟨hsref, honeA⟩, hanyA⟩, hallA⟩, hreqA⟩, hpropO⟩ := hsh
      have hszm : sizeOf fields + sizeOf d < m := by
        simp only [Json.obj.sizeOf_spec] at hsz
        omega
      have hAlts : ∀ key alts (v2 : Json) (p2 : String),
          jsGet fields key = some (Json.arr alts) →
          ∀ a ∈ alts, (validate m v2 a d p2).isSome = true := by
        intro key alts v2 p2 hkey a ha
        apply ih a v2 p2
        · have h1 := benign_of_get fields key _ hfields hkey
          unfold benign at h1
          exact benignList_mem alts a h1 ha
        · have h1 := List.sizeOf_lt_of_mem ha
          have h2 := jsGet_sizeOf_lt fields key _ hkey
          simp only [Json.arr.sizeOf_spec] at h2
          omega
      rw [validate]
      rw [if_neg (fun h => Json.noConfusion h)]
      by_cases href : jsTruthy (jsField (Json.obj fields) "$ref") = true
      · rw [if_pos href]
        obtain ⟨r, hr⟩ := strIfTruthy_cases fields "$ref" hsref href
        rw [show jsField (Json.obj fields) "$ref" = jsGet fields "$ref" from rfl, hr]
        show (match resolveRef r d with
          | some resolved =>
            if jsTruthy (some resolved) = true then validate m v resolved d p
            else some ([], [])
          | none => some ([], [])).isSome = true
        cases hres : resolveRef r d with
        | none => rfl
        | some resolved =>
          by_cases htr : jsTruthy (some resolved) = true
          · show (if jsTruthy (some resolved) = true then
                validate m v resolved d p
              else some ([], [])).isSome = true
            rw [if_pos htr]
            obtain ⟨hrf2, hlt⟩ := resolveRef_refFree r d resolved hd hres
            apply validate_refFree_isSome d m resolved v p hrf2
            simp only [Json.obj.sizeOf_spec] at hsz
            omega
          · show (if jsTruthy (some resolved) = true then
                validate m v resolved d p
              else some ([], [])).isSome = true
            rw [if_neg htr]
            rfl
      · rw [if_neg href]
        by_cases hun : (jsTruthy (jsField (Json.obj fields) "oneOf") ||
            jsTruthy (jsField (Json.obj fields) "anyOf")) = true
        · rw [if_pos hun]
          by_cases hone : jsTruthy (jsField (Json.obj fields) "oneOf") = true
          · obtain ⟨alts, halts⟩ := arrIfTruthy_cases fields "oneOf" honeA hone
            rw [if_pos hone]
            rw [show jsField (Json.obj fields) "oneOf" = jsGet fields "oneOf" from rfl, halts]
            show (match someMatch (fun a => validate m v a d p) alts with
              | none => none
              | some mm =>
                if (!mm && decide (alts.length > 0)) = true then
                  some ([], [p ++ ": value doesn\'t match any of the expected schemas"])
                else some ([], [])).isSome = true
            rw [someMatch_eq_any _ _ (hAlts "oneOf" alts v p halts)]
            show (if (!(alts.any fun a => branchMatches (validate m v a d p)) &&
                decide (alts.length > 0)) = true then
                some ([], [p ++ ": value doesn\'t match any of the expected schemas"])
              else some ([], [])).isSome = true
            split_ifs <;> rfl
          · have hany : jsTruthy (jsField (Json.obj fields) "anyOf") = true := by
              have hor : jsTruthy (jsField (Json.obj fields) "oneOf") = true ∨
                  jsTruthy (jsField (Json.obj fields) "anyOf") = true := by
                simpa using hun
              rcases hor with h | h
              · exact absurd h hone
              · exact h
            obtain ⟨alts, halts⟩ := arrIfTruthy_cases fields "anyOf" hanyA hany
            rw [if_neg hone]
            rw [show jsField (Json.obj fields) "anyOf" = jsGet fields "anyOf" from rfl, halts]
            show (match someMatch (fun a => validate m v a d p) alts with
              | none => none
              | some mm =>
                if (!mm && decide (alts.length > 0)) = true then
                  some ([], [p ++ ": value doesn\'t match any of the expected schemas"])
                else some ([], [])).isSome = true
            rw [someMatch_eq_any _ _ (hAlts "anyOf" alts v p halts)]
            show (if (!(alts.any fun a => branchMatches (validate m v a d p)) &&
                decide (alts.length > 0)) = true then
                some ([], [p ++ ": value doesn\'t match any of the expected schemas"])
              else some ([], [])).isSome = true
            split_ifs <;> rfl
        · rw [if_neg hun]
          by_cases hall : jsTruthy (jsField (Json.obj fields) "allOf") = true
          · rw [if_pos hall]
            obtain ⟨subs, hsubs⟩ := arrIfTruthy_cases fields "allOf" hallA hall
            rw [show jsField (Json.obj fields) "allOf" = jsGet fields "allOf" from rfl, hsubs]
            exact seqFold_isSome _ _ (hAlts "allOf" subs v p hsubs)
          · rw [if_neg hall]
            apply validateTyped_isSome _ _ _ _ hshape
            · intro v2 c p2 hc
              apply ih c v2 p2 (benign_of_get fields "items" c hfields hc)
              have h1 := jsGet_sizeOf_lt fields "items" c hc
              simp only [Json.obj.sizeOf_spec] at hsz
              omega
            · intro v2 c p2 props k2 hpg hmem
              apply ih c v2 p2
              · have h1 := benign_of_get fields "properties" _ hfields hpg
                unfold benign at h1
                simp only [Bool.and_eq_true] at h1
                exact benignFields_mem props k2 c h1.2 hmem
              · have h1 := sizeOf_snd_lt_of_mem props k2 c hmem
                have h2 := jsGet_sizeOf_lt fields "properties" _ hpg
                simp only [Json.obj.sizeOf_spec] at h2 hsz
                omega

/-- C1: the validator returns normally — with a (possibly empty) error and
warning list — for every value, provided the schema node is `benign`
(crash-free shape) and the document is hereditarily `refFree` (every
pointer chain ends after one hop), with fuel beyond the sizes involved.
The claim's unconditional form, resting on a depth guard the code does not
have, fails on a cyclic pointer chain: see `validate_cyclic_diverges`. -/
theorem validate_total_benign (n : Nat) (v s d : Json) (p : String)
    (hben : benign s = true) (hd : refFree d = true)
    (hfuel : sizeOf s + sizeOf d < n) :
    (validate n v s d p).isSome = true :=
  validate_benign_isSome d hd n s v p hben hfuel

theorem validate_total_benign_witness :
    (validate 100000 (Json.bool true) (Json.obj [("type", Json.str "boolean")])
      (Json.obj []) "$").isSome = true :=
  validate_total_benign 100000 (Json.bool true) (Json.obj [("type", Json.str "boolean")])
    (Json.obj []) "$" (by decide) (by decide) (by decide)

end QBSpec
